import Mathlib

/-!
Verification of the conduit storage core (state-diff chains, migrations,
account data, watchers, counters) against its Rust source.

Bytes are modelled as `List Nat` (each element a byte value), byte trees as
association lists ordered by the lexicographic byte order, `u64` values as
`Nat` reduced modulo `2 ^ 64` where the Rust arithmetic can wrap, and Rust
`HashSet<Vec<u8>>` values as duplicate-free `List (List Nat)` with
set-semantics operations (a `HashSet` iterates in some arbitrary order; the
list records one such order).
-/

namespace Conduit

/-- Lexicographic (byte-string) order on byte lists: the order SQLite and sled
use for BLOB keys. -/
def listLt : List Nat → List Nat → Bool
  | [], [] => false
  | [], _ :: _ => true
  | _ :: _, [] => false
  | a :: as, b :: bs => if a < b then true else if b < a then false else listLt as bs

/-- Big-endian byte encoding of a natural number into `k` bytes
(`u64::to_be_bytes` is `beBytes 8`). -/
def beBytes : Nat → Nat → List Nat
  | 0, _ => []
  | k + 1, n => beBytes k (n / 256) ++ [n % 256]

/-- `u64::to_be_bytes`. -/
def u64be (n : Nat) : List Nat := beBytes 8 n

/-- `u64::from_be_bytes` composed with `try_into`: folds the bytes big-endian.
(`utils::u64_from_bytes` first checks the length is 8; callers below do.) -/
def u64val (bytes : List Nat) : Nat := bytes.foldl (fun acc b => acc * 256 + b) 0

/-- The eight zero bytes `0_u64.to_be_bytes()`. -/
def zeros8 : List Nat := [0, 0, 0, 0, 0, 0, 0, 0]

/-- `p` is an initial segment of `k`: models the loop
`for length in 0..=key.len() { if watchers.contains_key(&key[..length]) ... }`
in `SqliteTable::insert`, which triggers exactly the registered byte strings
equal to some `key[..length]`. -/
def isPfx (p k : List Nat) : Bool := p = k.take p.length

/-- The final `0xff`-separated segment of a key:
`k.rsplit(|&b| b == 0xff).next().unwrap()` in the Rust source. -/
def lastSeg (k : List Nat) : List Nat := (k.reverse.takeWhile (· ≠ 255)).reverse

/-! ### Association-list trees

A KV tree is an association list from byte keys to values, kept sorted by
`listLt` with unique keys, mirroring an ordered byte-keyed tree.  `insertT`
overwrites, `removeT` deletes, `lookupT` reads. -/

/-- Ordered insert with overwrite (`Tree.insert`). -/
def insertT {α : Type} (k : List Nat) (v : α) : List (List Nat × α) → List (List Nat × α)
  | [] => [(k, v)]
  | (k', v') :: t =>
    if k = k' then (k, v) :: t
    else if listLt k k' then (k, v) :: (k', v') :: t
    else (k', v') :: insertT k v t

/-- Delete a key (`Tree.remove`). -/
def removeT {α : Type} (k : List Nat) (t : List (List Nat × α)) : List (List Nat × α) :=
  t.filter (fun kv => kv.1 ≠ k)

/-- Point read (`Tree.get`). -/
def lookupT {α : Type} (k : List Nat) : List (List Nat × α) → Option α
  | [] => none
  | (k', v) :: t => if k' = k then some v else lookupT k t

/-! ### `utils::increment` and the global counter (src/utils.rs:19-29,
src/database/globals.rs:95-103)

`increment` decodes the old value as a big-endian `u64` when it is exactly 8
bytes and adds one (`number + 1` wraps at `2 ^ 64` in a release build), and
starts at 1 when the old value is absent or has any other length.  It always
returns `Some`. -/

/-- `utils::increment`: always returns `some` bytes; never a decode error. -/
def increment (old : Option (List Nat)) : Option (List Nat) :=
  match old with
  | some bytes =>
    if bytes.length = 8 then some (u64be ((u64val bytes + 1) % 2 ^ 64))
    else some (u64be 1)
  | none => some (u64be 1)

/-- The bytes `increment` stores (it always returns `some`, see
`increment_isSome`). -/
def incrementBytes (old : Option (List Nat)) : List Nat :=
  (increment old).getD []

/-- `SqliteTable::increment`: read the old value under the write lock, apply
`utils::increment`, store and return the new bytes
(src/database/abstraction/sqlite.rs:357-377). -/
def sqliteIncrement (k : List Nat) (t : List (List Nat × List Nat)) :
    List Nat × List (List Nat × List Nat) :=
  let old := lookupT k t
  let new := incrementBytes old
  (new, insertT k new t)

/-- `Globals::next_count` on the stored counter bytes: run `utils::increment`
on the current value of key `"c"` and decode the stored bytes as a `u64`
(the result is always 8 bytes, so decoding never fails).  Returns
(returned count, new stored bytes). -/
def next_count (stored : Option (List Nat)) : Nat × List Nat :=
  let new := incrementBytes stored
  (u64val new, new)

/-- Stored counter bytes after `k` calls of `next_count` on a fresh database
(key `"c"` initially absent). -/
def counterAfter : Nat → Option (List Nat)
  | 0 => none
  | k + 1 => some (next_count (counterAfter k)).2

/-- The value returned by the `k`-th `next_count` call (1-indexed) on a fresh
database. -/
def nthCount (k : Nat) : Nat := (next_count (counterAfter (k - 1))).1

/-! ### `HashSet<Vec<u8>>` as duplicate-free lists -/

/-- `HashSet::insert`. -/
def setIns (v : List Nat) (s : List (List Nat)) : List (List Nat) :=
  if s.contains v then s else s ++ [v]

/-- Set difference: repeated `HashSet::remove`. -/
def setDiff (s r : List (List Nat)) : List (List Nat) :=
  s.filter (fun x => ¬ r.contains x)

/-- `HashSet::extend`: add the elements of `b` not already present. -/
def setUnion (s b : List (List Nat)) : List (List Nat) :=
  s ++ b.filter (fun x => ¬ s.contains x)

/-! ### The state-diff chain (src/database.rs:460-637)

A row of `shortstatehash_statediff` is raw bytes:
`parent(8) ‖ added entries(16 each) ‖ [0u64 separator ‖ removed entries] `.
The store maps an 8-byte `ShortStateHash` to such a value. -/

/-- The `shortstatehash_statediff` tree: hash bytes to value bytes. -/
def Store : Type := List Nat → Option (List Nat)

/-- The empty tree. -/
def store0 : Store := fun _ => none

/-- `Tree.insert` on the diff tree (overwrites). -/
def insertStore (σ : Store) (k v : List Nat) : Store :=
  fun x => if x = k then some v else σ x

/-- The chunk loop of `load_shortstatehash_info` (src/database.rs:491-508):
read 16-byte windows; in add mode a window starting with eight zero bytes is
the separator (advance 8 and switch to removed mode); otherwise the window is
an entry of the current set.  `fuel` bounds the iteration count; each step
consumes at least 8 bytes, so `fuel = bytes.length` always suffices. -/
def parseChunks : Nat → List Nat → Bool → List (List Nat) × List (List Nat)
  | 0, _, _ => ([], [])
  | fuel + 1, bytes, addMode =>
    if 16 ≤ bytes.length then
      let v := bytes.take 16
      if addMode ∧ v.take 8 = zeros8 then
        parseChunks fuel (bytes.drop 8) false
      else if addMode then
        let (a, r) := parseChunks fuel (bytes.drop 16) true
        (setIns v a, r)
      else
        let (a, r) := parseChunks fuel (bytes.drop 16) false
        (a, setIns v r)
    else ([], [])

/-- One layer of the result of `load_shortstatehash_info`: the tuple
`(sstatehash, full state, added, removed)`. -/
structure Layer where
  hash : List Nat
  state : List (List Nat)
  added : List (List Nat)
  removed : List (List Nat)
  deriving DecidableEq, Inhabited

/-- `load_shortstatehash_info` (src/database.rs:460-528) without the LRU
memoisation (the cache only short-circuits recomputation and does not change
the result).  Reads the value of the hash, takes the first 8 bytes as the
parent, parses the added/removed chunks, and when the parent is nonzero
recurses on it, extending the inherited full state with `added` and then
deleting `removed`.  The Rust recursion has no termination guard (it would
diverge on a parent cycle); `fuel` bounds the walk, and any chain of depth at
most `fuel` loads identically for every larger fuel.  A stored value shorter
than 8 bytes makes the Rust slice `value[0..8]` panic; here it yields
`none`. -/
def load_shortstatehash_info (σ : Store) : Nat → List Nat → Option (List Layer)
  | 0, _ => none
  | fuel + 1, shortstatehash =>
    match σ shortstatehash with
    | none => none
    | some value =>
      if value.length < 8 then none
      else
        let par := value.take 8
        let pr := parseChunks (value.drop 8).length (value.drop 8) true
        if par ≠ zeros8 then
          match load_shortstatehash_info σ fuel par with
          | none => none
          | some response =>
            match response.getLast? with
            | none => none
            | some lastE =>
              some (response ++
                [⟨shortstatehash, setDiff (setUnion lastE.state pr.1) pr.2, pr.1, pr.2⟩])
        else
          some [⟨shortstatehash, pr.1, pr.1, pr.2⟩]

/-- The fold of a pending diff into a popped parent layer
(src/database.rs:550-558 and 599-608): for each pending removal, delete it
from the parent's added set if present, otherwise record it in the parent's
removed set; then extend the parent's added set with the pending additions. -/
def foldDiff (parentNew parentRemoved statediffnew statediffremoved :
    List (List Nat)) : List (List Nat) × List (List Nat) :=
  (setUnion (setDiff parentNew statediffremoved) statediffnew,
   setUnion parentRemoved (setDiff statediffremoved parentNew))

/-- Serialized bytes of a non-root diff layer (src/database.rs:618-629):
parent hash, added entries, and when the removed set is nonempty an 8-byte
zero separator followed by the removed entries. -/
def diffValue (parentHash : List Nat) (statediffnew statediffremoved :
    List (List Nat)) : List Nat :=
  parentHash ++ statediffnew.flatten ++
    (if statediffremoved.isEmpty then [] else zeros8 ++ statediffremoved.flatten)

/-- `update_shortstatehash_level` (src/database.rs:530-637), recursion bounded
by `fuel` (the recursion pops one element of `parent_states` each step, so
`fuel = parent_states.length + 1` always suffices and the fuel-0 branch is
never reached from `update_shortstatehash_level`).

* more than 3 layers: pop the last parent state, fold the pending diff into
  it, recurse;
* no parent layer: write a root value `0u64 ‖ added` (removals are dropped
  with a warning);
* otherwise pop the last parent state; if `diffsum² ≥ 2·diff_to_sibling·
  parent_diff` the diff is too big, fold and recurse; else attach the diff as
  a child of that parent. -/
def updateLevelAux (σ : Store) : Nat → List Nat → List (List Nat) →
    List (List Nat) → Nat → List Layer → Store
  | 0, _, _, _, _, _ => σ
  | fuel + 1, current_shortstatehash, statediffnew, statediffremoved,
      diff_to_sibling, parent_states =>
    let diffsum := statediffnew.length + statediffremoved.length
    if 3 < parent_states.length then
      match parent_states.getLast? with
      | none => σ
      | some parent =>
        let pr := foldDiff parent.added parent.removed statediffnew statediffremoved
        updateLevelAux σ fuel current_shortstatehash pr.1 pr.2 diffsum
          parent_states.dropLast
    else if parent_states.isEmpty then
      insertStore σ current_shortstatehash (zeros8 ++ statediffnew.flatten)
    else
      match parent_states.getLast? with
      | none => σ
      | some parent =>
        let parent_diff := parent.added.length + parent.removed.length
        if 2 * diff_to_sibling * parent_diff ≤ diffsum * diffsum then
          let pr := foldDiff parent.added parent.removed statediffnew statediffremoved
          updateLevelAux σ fuel current_shortstatehash pr.1 pr.2 diffsum
            parent_states.dropLast
        else
          insertStore σ current_shortstatehash
            (diffValue parent.hash statediffnew statediffremoved)

/-- `update_shortstatehash_level` with sufficient fuel. -/
def update_shortstatehash_level (current_shortstatehash : List Nat)
    (statediffnew statediffremoved : List (List Nat)) (diff_to_sibling : Nat)
    (parent_states : List Layer) (σ : Store) : Store :=
  updateLevelAux σ (parent_states.length + 1) current_shortstatehash
    statediffnew statediffremoved diff_to_sibling parent_states

/-- Stores built the way the state store builds them: starting from the empty
tree, each new `ShortStateHash` is an unused 8-byte nonzero key and is written
by `update_shortstatehash_level` with `diff_to_sibling = 2` and either no
parent chain (first state of a room) or the chain
`load_shortstatehash_info` returns for the previous state hash
(src/database.rs:647-714). -/
inductive ReachableStore : Store → Prop
  | base : ReachableStore store0
  | stepRoot (σ : Store) (h : List Nat) (a r : List (List Nat)) :
      ReachableStore σ → h.length = 8 → h ≠ zeros8 → σ h = none →
      ReachableStore (update_shortstatehash_level h a r 2 [] σ)
  | stepChild (σ : Store) (prev h : List Nat) (f : Nat) (l : List Layer)
      (a r : List (List Nat)) :
      ReachableStore σ → h.length = 8 → h ≠ zeros8 → σ h = none →
      load_shortstatehash_info σ f prev = some l →
      ReachableStore (update_shortstatehash_level h a r 2 l σ)

/-! ### A concrete run of the state store (used for C1)

Entries are 16 bytes: `short_state_key(8) ‖ short_event_id(8)`; short state
keys come from `next_count`, so the first 8 bytes of an entry are never all
zero.  `ent i` is the entry with short state key `i`, `hsh i` a state hash. -/

/-- A 16-byte state entry whose short state key is `i` (`1 ≤ i ≤ 255`). -/
def ent (i : Nat) : List Nat := [0, 0, 0, 0, 0, 0, 0, i, 0, 0, 0, 0, 0, 0, 0, 0]

/-- An 8-byte state hash. -/
def hsh (i : Nat) : List Nat := [9, 9, 9, 9, 9, 9, 9, i]

/-- Initial room state: ten entries. -/
def exS0 : List (List Nat) :=
  [ent 1, ent 2, ent 3, ent 4, ent 5, ent 6, ent 7, ent 8, ent 9, ent 10]

/-- Store after the first state (root layer for `hsh 1`). -/
def exStore1 : Store := update_shortstatehash_level (hsh 1) exS0 [] 2 [] store0

/-- Chain loaded for `hsh 1`. -/
def exChain1 : List Layer := (load_shortstatehash_info exStore1 5 (hsh 1)).getD []

/-- Second state: `exS0` plus `ent 11` (diff: added `{ent 11}`). -/
def exStore2 : Store := update_shortstatehash_level (hsh 2) [ent 11] [] 2 exChain1 exStore1

/-- Chain loaded for `hsh 2`. -/
def exChain2 : List Layer := (load_shortstatehash_info exStore2 5 (hsh 2)).getD []

/-- Third state: `ent 10` removed (diff: removed `{ent 10}`). -/
def exStore3 : Store := update_shortstatehash_level (hsh 3) [] [ent 10] 2 exChain2 exStore2

/-- Chain loaded for `hsh 3`, the current state. -/
def exChain3 : List Layer := (load_shortstatehash_info exStore3 5 (hsh 3)).getD []

/-- The current full state `S` (last layer of `exChain3`). -/
def exScur : List (List Nat) := (exChain3.getLast?.map Layer.state).getD []

/-- The next state `S′`: re-add `ent 10` and add `ent 12`. -/
def exSprime : List (List Nat) := setUnion exScur [ent 10, ent 12]

/-- `added = S′ ∖ S`. -/
def exAdded : List (List Nat) := setDiff exSprime exScur

/-- `removed = S ∖ S′`. -/
def exRemoved : List (List Nat) := setDiff exScur exSprime

/-- Store after recording `S′` under `hsh 4`. -/
def exStore4 : Store :=
  update_shortstatehash_level (hsh 4) exAdded exRemoved 2 exChain3 exStore3

/-! ### The sqlite table with watchers (src/database/abstraction/sqlite.rs)

`SqliteTable` holds the tree plus the registered watchers; a watcher is a
byte string with a completion flag for the oneshot future returned by
`watch_prefix`. -/

/-- A table plus its registered watchers. -/
structure TableState where
  table : List (List Nat × List Nat)
  watchers : List (List Nat × Bool)
  deriving DecidableEq

/-- `SqliteTable::watch_prefix` (sqlite.rs:399-412): registers a oneshot
sender for the byte string; the returned future completes when the flag is
set. -/
def watchPfx (p : List Nat) (s : TableState) : TableState :=
  { s with watchers := s.watchers ++ [(p, false)] }

/-- `SqliteTable::insert` (sqlite.rs:259-296): writes the row, then fires and
deregisters every watcher registered for some `key[..length]`,
`0 ≤ length ≤ key.len()` — i.e. every watcher whose byte string is an initial
segment of the key.  Firing the oneshot completes the future: the flag
becomes (and stays) `true`. -/
def sqliteInsert (k v : List Nat) (s : TableState) : TableState :=
  { table := insertT k v s.table,
    watchers := s.watchers.map fun w => if isPfx w.1 k then (w.1, true) else w }

/-- `SqliteTable::remove` (sqlite.rs:298-316): deletes the row.  The function
body never touches `self.watchers`. -/
def sqliteRemove (k : List Nat) (s : TableState) : TableState :=
  { s with table := removeT k s.table }

/-- A committed mutation on the table. -/
inductive DbOp
  | ins (k v : List Nat)
  | del (k : List Nat)
  deriving DecidableEq

/-- Apply one mutation. -/
def applyOp (s : TableState) : DbOp → TableState
  | .ins k v => sqliteInsert k v s
  | .del k => sqliteRemove k s

/-- Apply a sequence of mutations. -/
def runOps (s : TableState) (ops : List DbOp) : TableState := ops.foldl applyOp s

/-! ### Account data (src/database/account_data.rs)

A stored value is the serialized JSON object; we model it as its field list
(name ↦ content bytes), since `serde_json` round-trips objects and
`update`/`get` only probe the `type` and `content` fields. -/

/-- A JSON object as a field list. -/
abbrev Json : Type := List (List Nat × List Nat)

/-- The bytes of the field name `type`. -/
def tyField : List Nat := [116, 121, 112, 101]

/-- The bytes of the field name `content`. -/
def contentField : List Nat := [99, 111, 110, 116, 101, 110, 116]

/-- `json.get(name).is_some()`. -/
def hasField (name : List Nat) (j : Json) : Bool :=
  j.any fun p => p.1 = name

/-- `json.get("type").is_some() && json.get("content").is_some()`
(account_data.rs:47). -/
def validJson (j : Json) : Bool := hasField tyField j && hasField contentField j

/-- The `roomuserdataid_accountdata` tree. -/
abbrev ADTree : Type := List (List Nat × Json)

/-- The key lookup type of `(room?, user)`:
`room_id.map(to_string).unwrap_or_default() ‖ 0xff ‖ user ‖ 0xff`
(account_data.rs:26-33). -/
def adPfx (room : Option (List Nat)) (user : List Nat) : List Nat :=
  room.getD [] ++ [255] ++ user ++ [255]

/-- `AccountData::find_event` (account_data.rs:124-156): scan the prefix of
`(room?, user)` in reverse and return the first row whose final
`0xff`-separated key segment equals the event type. -/
def find_event (room : Option (List Nat)) (user ty : List Nat) (t : ADTree) :
    Option (List Nat × Json) :=
  ((t.filter fun kv => isPfx (adPfx room user) kv.1).reverse).find?
    fun kv => lastSeg kv.1 == ty

/-- The error returned when the value lacks `type` or `content`. -/
inductive AdError
  | invalidParam
  deriving DecidableEq

/-- `AccountData::update` (account_data.rs:18-58): remove the previous entry
for `(room?, user, type)` if any, build the new key with a fresh
`next_count`, then check the value has `type` and `content` fields — on
failure return the invalid-param error (the removal has already happened) —
and finally insert the new row.  Returns (error?, tree, counter). -/
def adUpdate (room : Option (List Nat)) (user ty : List Nat) (j : Json)
    (cnt : Nat) (t : ADTree) : Option AdError × ADTree × Nat :=
  let t1 := match find_event room user ty t with
    | some old => removeT old.1 t
    | none => t
  let cnt' := (cnt + 1) % 2 ^ 64
  let key := adPfx room user ++ u64be cnt' ++ [255] ++ ty
  if validJson j then (none, insertT key j t1, cnt')
  else (some .invalidParam, t1, cnt')

/-- `AccountData::get` (account_data.rs:61-73): deserialize the value found
by `find_event`. -/
def adGet (room : Option (List Nat)) (user ty : List Nat) (t : ADTree) :
    Option Json :=
  (find_event room user ty t).map (·.2)

/-- A row of the tree that belongs to `(room?, user, type)`. -/
def adMatch (room : Option (List Nat)) (user ty : List Nat)
    (kv : List Nat × Json) : Bool :=
  isPfx (adPfx room user) kv.1 && (lastSeg kv.1 == ty)

/-- A sequence of `update` calls for one `(room?, user, type)`, each drawing
the next count. -/
def runAD (room : Option (List Nat)) (user ty : List Nat) :
    List Json → Nat → ADTree → ADTree × Nat
  | [], cnt, t => (t, cnt)
  | j :: js, cnt, t =>
    let r := adUpdate room user ty j cnt t
    runAD room user ty js r.2.2 r.2.1

/-! ### Generic association lists for structured keys -/

/-- Association lookup. -/
def aLookup {κ α : Type} [DecidableEq κ] (k : κ) : List (κ × α) → Option α
  | [] => none
  | (k', v) :: t => if k' = k then some v else aLookup k t

/-- Association delete. -/
def aRemove {κ α : Type} [DecidableEq κ] (k : κ) (l : List (κ × α)) :
    List (κ × α) :=
  l.filter fun kv => kv.1 ≠ k

/-- Association overwrite. -/
def aInsert {κ α : Type} [DecidableEq κ] (k : κ) (v : α) (l : List (κ × α)) :
    List (κ × α) :=
  (k, v) :: aRemove k l

/-! ### Users and devices

Modelled from the spec: `src/database/users.rs` is not part of the provided
sources (only its caller `src/client_server/account.rs` is), so the device
and token tables follow §4.3 of the specification: `create_device` stores
`(user, device) → token` and the reverse `token → (user, device)`;
`remove_device` deletes the token reverse-index, the device metadata and the
queued to-device events of the device; `find_from_token` reads the reverse
index; `all_device_ids` lists the devices of a user;
`set_password` stores the new password. -/

/-- Modelled from the spec: §4.3, the device-and-token tables of the `Users`
component (users.rs is not in the provided sources). -/
structure UsersDb where
  userdeviceid_token : List ((List Nat × List Nat) × List Nat)
  token_userdeviceid : List (List Nat × (List Nat × List Nat))
  userdeviceid_metadata : List ((List Nat × List Nat) × List Nat)
  userid_password : List (List Nat × List Nat)
  todeviceid_events : List ((List Nat × List Nat) × List Nat)
  deriving DecidableEq

/-- Modelled from the spec: §4.3, `Users::create_device`. -/
def create_device (u d token meta : List Nat) (st : UsersDb) : UsersDb :=
  { st with
    userdeviceid_token := aInsert (u, d) token st.userdeviceid_token
    token_userdeviceid := aInsert token (u, d) st.token_userdeviceid
    userdeviceid_metadata := aInsert (u, d) meta st.userdeviceid_metadata }

/-- Modelled from the spec: §4.3, `Users::remove_device` deletes the token
reverse-index entry of the device's token, the device metadata, and all
queued to-device events for the device. -/
def remove_device (u d : List Nat) (st : UsersDb) : UsersDb :=
  { st with
    token_userdeviceid :=
      match aLookup (u, d) st.userdeviceid_token with
      | some tok => aRemove tok st.token_userdeviceid
      | none => st.token_userdeviceid
    userdeviceid_metadata := aRemove (u, d) st.userdeviceid_metadata
    todeviceid_events := st.todeviceid_events.filter fun kv => kv.1 ≠ (u, d) }

/-- Modelled from the spec: §4.3, `Users::find_from_token`. -/
def find_from_token (tok : List Nat) (st : UsersDb) : Option (List Nat × List Nat) :=
  aLookup tok st.token_userdeviceid

/-- Modelled from the spec: §4.3, `Users::all_device_ids`. -/
def all_device_ids (u : List Nat) (st : UsersDb) : List (List Nat) :=
  (st.userdeviceid_metadata.filter fun kv => kv.1.1 = u).map fun kv => kv.1.2

/-- Modelled from the spec: §4.3, `Users::set_password`. -/
def set_password (u pw : List Nat) (st : UsersDb) : UsersDb :=
  { st with userid_password := aInsert u pw st.userid_password }

/-- The success path of `change_password_route`
(src/client_server/account.rs:247-259), entered once the UIAA check for
`(sender, device)` has succeeded: store the new password, then remove every
device of the sender other than the current one. -/
def change_password (u d newpw : List Nat) (st : UsersDb) : UsersDb :=
  let st1 := set_password u newpw st
  ((all_device_ids u st1).filter fun id => id ≠ d).foldl
    (fun s id => remove_device u id s) st1

/-! ### The migration runner (src/database.rs:221-808)

The database aggregate seen by the migrations.  External effects are made
explicit: `mediaFiles` is the flat-file directory written by migration 2→3;
`verifyEmpty` is the `argon2::verify_encoded(&password, b"")` oracle of
migration 1→2; `roomOf` resolves a short event id to its PDU's room id in
migration 5→6 (the resolution goes through `shorteventid_eventid` and
`Rooms::get_pdu`, the latter not in the provided sources — modelled from the
spec as a lookup that fails when the event is unknown, where the Rust
`unwrap()` panics). -/

/-- The trees the migrations touch, plus the schema version. -/
structure MigDb where
  serverName : List Nat
  roomserverids : List (List Nat × List Nat)
  serverroomids : List (List Nat × List Nat)
  useridPassword : List (List Nat × List Nat)
  mediaidFile : List (List Nat × List Nat)
  mediaFiles : List (List Nat × List Nat)
  userroomidJoined : List (List Nat × List Nat)
  roomuseridJoined : List (List Nat × List Nat)
  roomuserdataidAccountdata : List (List Nat × List Nat)
  roomusertypeRoomuserdataid : List (List Nat × List Nat)
  stateidShorteventid : List (List Nat × List Nat)
  shortstatehashStatediff : Store
  roomidShortstatehash : List (List Nat × List Nat)
  roomidShortroomid : List (List Nat × List Nat)
  shortroomidRoomid : List (List Nat × List Nat)
  pduidPdu : List (List Nat × List Nat)
  tokenids : List (List Nat × List Nat)
  counter : Option (List Nat)
  version : Nat

/-- A fresh, empty database (version 0). -/
def emptyMigDb : MigDb where
  serverName := []
  roomserverids := []
  serverroomids := []
  useridPassword := []
  mediaidFile := []
  mediaFiles := []
  userroomidJoined := []
  roomuseridJoined := []
  roomuserdataidAccountdata := []
  roomusertypeRoomuserdataid := []
  stateidShorteventid := []
  shortstatehashStatediff := store0
  roomidShortstatehash := []
  roomidShortroomid := []
  shortroomidRoomid := []
  pduidPdu := []
  tokenids := []
  counter := none
  version := 0

/-- How `load_or_create` ends: a failed migration aborts the process, and the
`panic!()` at src/database.rs:786 aborts it on the success path. -/
inductive LoadErr
  | migrationFailed
  | panicked
  deriving DecidableEq

/-- The first `0xff`-separated segment of a key. -/
def seg1 (k : List Nat) : List Nat := k.takeWhile (· ≠ 255)

/-- The bytes after the first `0xff` of a key (`splitn(2, 0xff)` remainder). -/
def rest1 (k : List Nat) : List Nat := (k.dropWhile (· ≠ 255)).drop 1

/-- Migration 0→1 (src/database.rs:353-374): populate `serverroomids` from
`roomserverids`.  Keys without a `0xff` separator are skipped with an error
log. -/
def mig0to1 (db : MigDb) : MigDb :=
  let srv := db.roomserverids.foldl
    (fun acc kv =>
      if kv.1.contains 255 then
        insertT (seg1 (rest1 kv.1) ++ [255] ++ seg1 kv.1) [] acc
      else acc)
    db.serverroomids
  { db with serverroomids := srv, version := 1 }

/-- Migration 1→2 (src/database.rs:376-393): replace password hashes that
verify the empty string with literal empty bytes.  `verifyEmpty` is the
`argon2::verify_encoded(hash, b"")` oracle (false on undecodable bytes). -/
def mig1to2 (verifyEmpty : List Nat → Bool) (db : MigDb) : MigDb :=
  let up := db.useridPassword.foldl
    (fun acc kv => if verifyEmpty kv.2 then insertT kv.1 [] acc else acc)
    db.useridPassword
  { db with useridPassword := up, version := 2 }

/-- Migration 2→3 (src/database.rs:395-411): move nonempty media blobs to
flat files named by the key and blank the tree value. -/
def mig2to3 (db : MigDb) : MigDb :=
  let moved := db.mediaidFile.foldl
    (fun acc kv =>
      if kv.2.isEmpty then acc
      else (insertT kv.1 kv.2 acc.1, insertT kv.1 [] acc.2))
    (db.mediaFiles, db.mediaidFile)
  { db with mediaFiles := moved.1, mediaidFile := moved.2, version := 3 }

/-- The server-name part of `@local:server`. -/
def serverOf (u : List Nat) : List Nat := (u.dropWhile (· ≠ 58)).drop 1

/-- Modelled from the spec: §4.3 and §4.8, `Rooms::rooms_joined`, a prefix scan
of `userroomid_joined` (rooms.rs is not in the provided sources). -/
def roomsJoined (u : List Nat) (db : MigDb) : List (List Nat) :=
  (db.userroomidJoined.filter fun kv => isPfx (u ++ [255]) kv.1).map
    fun kv => kv.1.drop (u.length + 1)

/-- Modelled from the spec: §4.8, `Rooms::room_members`, a prefix scan of
`roomuserid_joined`. -/
def roomMembers (r : List Nat) (db : MigDb) : List (List Nat) :=
  (db.roomuseridJoined.filter fun kv => isPfx (r ++ [255]) kv.1).map
    fun kv => kv.1.drop (r.length + 1)

/-- Migration 3→4 (src/database.rs:413-434): for every non-deactivated local
user, create every remote member of each joined room as a deactivated row
(`Users::create` with no password stores empty bytes; `is_deactivated` reads
the marker — both modelled from the spec, users.rs not being in the provided
sources; deactivated rows are those with empty password). -/
def mig3to4 (db : MigDb) : MigDb :=
  let us := db.useridPassword.foldl
    (fun acc uv =>
      if lookupT uv.1 db.useridPassword = some [] then acc
      else
        (roomsJoined uv.1 db).foldl
          (fun acc2 r =>
            (roomMembers r db).foldl
              (fun acc3 m =>
                if serverOf m ≠ db.serverName then insertT m [] acc3 else acc3)
              acc2)
          acc)
    db.useridPassword
  { db with useridPassword := us, version := 4 }

/-- Migration 4→5 (src/database.rs:436-458): derive the
`roomusertype_roomuserdataid` index from the account-data primary keys
(`room ‖ 0xff ‖ user ‖ 0xff ‖ type ↦ full key`). -/
def mig4to5 (db : MigDb) : MigDb :=
  let idx := db.roomuserdataidAccountdata.foldl
    (fun acc kv =>
      insertT (seg1 kv.1 ++ [255] ++ seg1 (rest1 kv.1) ++ [255] ++ lastSeg kv.1)
        kv.1 acc)
    db.roomusertypeRoomuserdataid
  { db with roomusertypeRoomuserdataid := idx, version := 5 }

/-- Loop state of migration 5→6. -/
structure Mig6State where
  lastRoomstates : List (List Nat × List Nat)
  currentHash : List Nat
  currentRoom : Option (List Nat)
  currentState : List (List Nat)
  σ : Store

/-- Flush one grouped state of migration 5→6 (src/database.rs:651-714): load
the chain of the room's previous state hash (none for the room's first
state), diff the accumulated state against its last layer, and write the new
hash through `update_shortstatehash_level` with `diff_to_sibling = 2`.
Fuel 5 suffices for the load: chains written by
`update_shortstatehash_level` have at most 4 layers (see the depth bound
below). -/
def mig6flush (st : Mig6State) : Except LoadErr Mig6State :=
  match st.currentRoom with
  | none => .error .migrationFailed
  | some room => do
    let parents ← match aLookup room st.lastRoomstates with
      | none => Except.ok ([] : List Layer)
      | some lh =>
        match load_shortstatehash_info st.σ 5 lh with
        | some l => Except.ok l
        | none => Except.error LoadErr.migrationFailed
    let diffs := match parents.getLast? with
      | some pi => (setDiff st.currentState pi.state, setDiff pi.state st.currentState)
      | none => (st.currentState, ([] : List (List Nat)))
    Except.ok
      { st with
        lastRoomstates := aInsert room st.currentHash st.lastRoomstates
        σ := update_shortstatehash_level st.currentHash diffs.1 diffs.2 2 parents st.σ }

/-- One iteration of the migration 5→6 loop over `stateid_shorteventid`
(src/database.rs:647-737): keys are `sstatehash(8) ‖ sstatekey`; when the
hash changes, flush the previous group, reset, and resolve the room of the
new group's first event (`roomOf`; the Rust `unwrap()`s abort on failure);
in every iteration add `sstatekey ‖ shorteventid` to the current set. -/
def mig6step (roomOf : List Nat → Option (List Nat)) (st : Mig6State)
    (kv : List Nat × List Nat) : Except LoadErr Mig6State := do
  let sstatehash := kv.1.take 8
  let sstatekey := kv.1.drop 8
  let st1 ← if sstatehash ≠ st.currentHash then
      let st2 ← if st.currentHash.isEmpty then Except.ok st else mig6flush st
      match roomOf kv.2 with
      | none => Except.error LoadErr.migrationFailed
      | some room =>
        Except.ok { st2 with currentHash := sstatehash, currentRoom := some room,
                             currentState := [] }
    else Except.ok st
  Except.ok { st1 with currentState := setIns (sstatekey ++ kv.2) st1.currentState }

/-- Migration 5→6 (src/database.rs:639-742): rebuild the state store into the
diff-chain representation.  Faithful to the source, the final group is never
flushed (the loop only flushes when the hash changes). -/
def mig5to6 (roomOf : List Nat → Option (List Nat)) (db : MigDb) :
    Except LoadErr MigDb := do
  let st ← db.stateidShorteventid.foldlM (mig6step roomOf)
    { lastRoomstates := [], currentHash := [], currentRoom := none,
      currentState := [], σ := db.shortstatehashStatediff }
  .ok { db with shortstatehashStatediff := st.σ, version := 6 }

/-- Migration 6→7 (src/database.rs:744-784): allocate a short room id for
every room of `roomid_shortstatehash`; then the two "update db layout" loops
for `pduid_pdu` and `tokenids` only compute the new short-prefixed keys and
print them — the source contains no `insert` or `remove` for either tree, so
both trees are returned unchanged. -/
def mig6to7 (db : MigDb) : MigDb :=
  let alloc := db.roomidShortstatehash.foldl
    (fun acc kv =>
      let shortroomid := incrementBytes acc.1
      (some shortroomid, insertT kv.1 shortroomid acc.2.1,
       insertT shortroomid kv.1 acc.2.2))
    (db.counter, db.roomidShortroomid, db.shortroomidRoomid)
  let _pduKeys := db.pduidPdu.map fun kv =>
    (lookupT (seg1 kv.1) alloc.2.1).getD [] ++ rest1 kv.1
  let _tokenKeys := db.tokenids.map fun kv =>
    (lookupT (seg1 kv.1) alloc.2.1).getD [] ++ seg1 (rest1 kv.1) ++ [255] ++
      rest1 (rest1 (rest1 kv.1))
  { db with counter := alloc.1, roomidShortroomid := alloc.2.1,
            shortroomidRoomid := alloc.2.2, version := 7 }

/-- The migration sequence of `load_or_create` (src/database.rs:349-784):
each migration runs when the stored version is below its target and bumps the
version on success. -/
def migrationPipeline (verifyEmpty : List Nat → Bool)
    (roomOf : List Nat → Option (List Nat)) (db : MigDb) :
    Except LoadErr MigDb := do
  let db := if db.version < 1 then mig0to1 db else db
  let db := if db.version < 2 then mig1to2 verifyEmpty db else db
  let db := if db.version < 3 then mig2to3 db else db
  let db := if db.version < 4 then mig3to4 db else db
  let db := if db.version < 5 then mig4to5 db else db
  let db ← if db.version < 6 then mig5to6 roomOf db else .ok db
  let db := if db.version < 7 then mig6to7 db else db
  .ok db

/-- The migration block of `load_or_create` (src/database.rs:221-808): run
every pending migration in order; a failed migration aborts the process, and
when all of them succeed control reaches the unconditional `panic!()` at
src/database.rs:786.  The code after the panic — clearing presence, starting
the admin and sending handlers, returning `Ok(db)` — is unreachable. -/
def load_or_create (verifyEmpty : List Nat → Bool)
    (roomOf : List Nat → Option (List Nat)) (db : MigDb) :
    Except LoadErr MigDb :=
  match migrationPipeline verifyEmpty roomOf db with
  | .error e => .error e
  | .ok _ => .error .panicked

/-- The layer parsed for hash `h` from value bytes `value` on top of state
`st`. -/
def childLayer (h value : List Nat) (st : List (List Nat)) : Layer :=
  ⟨h,
   setDiff (setUnion st (parseChunks (value.drop 8).length (value.drop 8) true).1)
     (parseChunks (value.drop 8).length (value.drop 8) true).2,
   (parseChunks (value.drop 8).length (value.drop 8) true).1,
   (parseChunks (value.drop 8).length (value.drop 8) true).2⟩

/-- The root layer parsed for hash `h` from value bytes `value`. -/
def rootLayer (h value : List Nat) : Layer :=
  ⟨h, (parseChunks (value.drop 8).length (value.drop 8) true).1,
   (parseChunks (value.drop 8).length (value.drop 8) true).1,
   (parseChunks (value.drop 8).length (value.drop 8) true).2⟩

/-- Well-formedness of a diff store: every stored hash is an 8-byte nonzero
key whose chain loads within fuel 5 and has at most 4 layers. -/
def WFStore (σ : Store) : Prop :=
  ∀ h, σ h ≠ none → h.length = 8 ∧ h ≠ zeros8 ∧
    ∃ l, load_shortstatehash_info σ 5 h = some l ∧ l.length ≤ 4

/-! ## Lemmas -/

theorem lookupT_insertT_self {α : Type} (k : List Nat) (v : α) :
    ∀ t : List (List Nat × α), lookupT k (insertT k v t) = some v := by
  intro t
  induction t with
  | nil => simp [insertT, lookupT]
  | cons kv t ih =>
    by_cases h1 : k = kv.1
    · simp [insertT, h1, lookupT]
    · by_cases h2 : listLt k kv.1 <;>
        simp [insertT, h1, h2, lookupT, Ne.symm h1, ih]

theorem beBytes_length : ∀ k n, (beBytes k n).length = k := by
  intro k
  induction k with
  | zero => intro n; rfl
  | succ k ih => intro n; simp [beBytes, ih]

theorem u64be_length (n : Nat) : (u64be n).length = 8 := beBytes_length 8 n

theorem u64val_append (l : List Nat) (b : Nat) :
    u64val (l ++ [b]) = u64val l * 256 + b := by
  simp [u64val, List.foldl_append]

theorem u64val_beBytes : ∀ k n, u64val (beBytes k n) = n % 256 ^ k := by
  intro k
  induction k with
  | zero => intro n; simp [beBytes, u64val, Nat.mod_one]
  | succ k ih =>
    intro n
    rw [beBytes, u64val_append, ih]
    have h256 : (256 : Nat) ^ (k + 1) = 256 * 256 ^ k := by ring
    rw [h256, Nat.mod_mul]
    ring

theorem pow256_eight : (256 : Nat) ^ 8 = 2 ^ 64 := by norm_num

theorem u64val_u64be (n : Nat) (h : n < 2 ^ 64) : u64val (u64be n) = n := by
  rw [u64be, u64val_beBytes, pow256_eight]
  exact Nat.mod_eq_of_lt h

/-! ### C10: totality of `increment` -/

/-- C10: `Tree.increment` is total on arbitrary stored bytes.
`utils::increment` always produces a value (never a decode error); when the
current value is absent or not exactly 8 bytes, `SqliteTable::increment`
stores and returns the big-endian encoding of 1; when it is an 8-byte
big-endian integer `n` with `n < 2^64 - 1`, it stores and returns the
encoding of `n + 1`. -/
theorem increment_total (k : List Nat) (t : List (List Nat × List Nat)) :
    (increment (lookupT k t)).isSome = true ∧
    ((lookupT k t = none ∨ ∃ b, lookupT k t = some b ∧ b.length ≠ 8) →
      (sqliteIncrement k t).1 = u64be 1 ∧
      lookupT k (sqliteIncrement k t).2 = some (u64be 1)) ∧
    (∀ b, lookupT k t = some b → b.length = 8 → u64val b < 2 ^ 64 - 1 →
      (sqliteIncrement k t).1 = u64be (u64val b + 1) ∧
      lookupT k (sqliteIncrement k t).2 = some (u64be (u64val b + 1))) := by
  refine ⟨?_, ?_, ?_⟩
  · cases h : lookupT k t with
    | none => simp [increment]
    | some b =>
      by_cases hb : b.length = 8 <;> simp [increment, hb]
  · rintro (h | ⟨b, hb, hb8⟩)
    · simp [sqliteIncrement, incrementBytes, increment, h, lookupT_insertT_self]
    · simp [sqliteIncrement, incrementBytes, increment, hb, hb8, lookupT_insertT_self]
  · intro b hb hb8 hlt
    have hmod : (u64val b + 1) % 18446744073709551616 = u64val b + 1 := by
      omega
    simp [sqliteIncrement, incrementBytes, increment, hb, hb8, hmod,
      lookupT_insertT_self]

theorem increment_total_witness :
    ((lookupT [7] ([] : List (List Nat × List Nat)) = none ∨
        ∃ b, lookupT [7] ([] : List (List Nat × List Nat)) = some b ∧ b.length ≠ 8) →
      (sqliteIncrement [7] []).1 = u64be 1 ∧
      lookupT [7] (sqliteIncrement [7] []).2 = some (u64be 1)) ∧
    ((sqliteIncrement [7] []).1 = u64be 1 ∧
      lookupT [7] (sqliteIncrement [7] []).2 = some (u64be 1)) ∧
    (∀ b, lookupT [9] [([9], u64be 41)] = some b → b.length = 8 →
        u64val b < 2 ^ 64 - 1 →
      (sqliteIncrement [9] [([9], u64be 41)]).1 = u64be (u64val b + 1) ∧
      lookupT [9] (sqliteIncrement [9] [([9], u64be 41)]).2 =
        some (u64be (u64val b + 1))) :=
  ⟨(increment_total [7] []).2.1,
   (increment_total [7] []).2.1 (Or.inl (by decide)),
   (increment_total [9] [([9], u64be 41)]).2.2⟩

/-! ### C8: counter monotonicity -/

theorem counterAfter_succ :
    ∀ k, counterAfter (k + 1) = some (u64be ((k + 1) % 2 ^ 64)) := by
  intro k
  induction k with
  | zero =>
    show some (next_count none).2 = _
    simp only [next_count, incrementBytes, increment, Option.getD_some]
    norm_num
  | succ k ih =>
    have h8 : (u64be ((k + 1) % 2 ^ 64)).length = 8 := u64be_length _
    have hval : u64val (u64be ((k + 1) % 2 ^ 64)) = (k + 1) % 2 ^ 64 :=
      u64val_u64be _ (Nat.mod_lt _ (by norm_num))
    have harith : ((k + 1) % 2 ^ 64 + 1) % 2 ^ 64 = (k + 1 + 1) % 2 ^ 64 := by
      omega
    show some (next_count (counterAfter (k + 1))).2 = _
    rw [ih]
    simp only [next_count, incrementBytes, increment, if_pos h8,
      Option.getD_some, hval, harith]

theorem nthCount_eq : ∀ k, nthCount (k + 1) = (k + 1) % 2 ^ 64 := by
  intro k
  cases k with
  | zero =>
    show (next_count (counterAfter 0)).1 = 1 % 2 ^ 64
    simp only [counterAfter, next_count, incrementBytes, increment,
      Option.getD_some]
    rw [u64val_u64be 1 (by norm_num)]
    omega
  | succ k =>
    show (next_count (counterAfter (k + 1))).1 = _
    rw [counterAfter_succ k]
    have h8 : (u64be ((k + 1) % 2 ^ 64)).length = 8 := u64be_length _
    have hval : u64val (u64be ((k + 1) % 2 ^ 64)) = (k + 1) % 2 ^ 64 :=
      u64val_u64be _ (Nat.mod_lt _ (by norm_num))
    have harith : ((k + 1) % 2 ^ 64 + 1) % 2 ^ 64 = (k + 1 + 1) % 2 ^ 64 := by
      omega
    simp only [next_count, incrementBytes, increment, if_pos h8,
      Option.getD_some, hval]
    rw [u64val_u64be _ (Nat.mod_lt _ (by norm_num)), harith]

/-- C8 counterexample: the counter is a wrapping `u64`, so a sequence of
`2 ^ 64` calls on one database is not strictly increasing: call
`2 ^ 64 - 1` returns `2 ^ 64 - 1` and the next call returns 0. -/
theorem next_count_wraps :
    nthCount (2 ^ 64 - 1) = 2 ^ 64 - 1 ∧ nthCount (2 ^ 64) = 0 ∧
    nthCount (2 ^ 64) < nthCount (2 ^ 64 - 1) := by
  have h1 : (2 : Nat) ^ 64 - 1 = (2 ^ 64 - 2) + 1 := by norm_num
  have h2 : (2 : Nat) ^ 64 = (2 ^ 64 - 1) + 1 := by norm_num
  have e1 : nthCount (2 ^ 64 - 1) = 2 ^ 64 - 1 := by
    rw [h1, nthCount_eq, ← h1]
    exact Nat.mod_eq_of_lt (by norm_num)
  have e2 : nthCount (2 ^ 64) = 0 := by
    rw [h2, nthCount_eq, ← h2]
    simp
  exact ⟨e1, e2, by rw [e1, e2]; norm_num⟩

/-- C8 (amended): the values returned by `next_count` over the lifetime of a
fresh database are strictly increasing as long as fewer than `2 ^ 64` calls
are made (the `u64` counter wraps to 0 on call `2 ^ 64`). -/
theorem next_count_monotone (i j : Nat) (h1 : 1 ≤ i) (h2 : i < j)
    (h3 : j < 2 ^ 64) : nthCount i < nthCount j := by
  obtain ⟨i', rfl⟩ : ∃ i', i = i' + 1 := ⟨i - 1, by omega⟩
  obtain ⟨j', rfl⟩ : ∃ j', j = j' + 1 := ⟨j - 1, by omega⟩
  rw [nthCount_eq, nthCount_eq, Nat.mod_eq_of_lt (by omega),
    Nat.mod_eq_of_lt (by omega)]
  omega

theorem next_count_monotone_witness : nthCount 1 < nthCount 2 :=
  next_count_monotone 1 2 (by norm_num) (by norm_num) (by norm_num)

/-! ### C3: watcher wakeup -/

/-- C3 counterexample: a watcher for the byte string `[1]` registered by
`watch_prefix` is not completed by a subsequent `remove` of the key `[1, 2]`,
although that key starts with the watched bytes —
`SqliteTable::remove` never notifies watchers. -/
theorem remove_does_not_wake :
    isPfx [1] [1, 2] = true ∧
    (runOps (watchPfx [1] ⟨[([1, 2], [7])], []⟩) [DbOp.del [1, 2]]).watchers =
      [([1], false)] ∧
    lookupT [1, 2]
      (runOps (watchPfx [1] ⟨[([1, 2], [7])], []⟩) [DbOp.del [1, 2]]).table =
      none := by
  decide

theorem watchers_applyOp (s : TableState) (op : DbOp) (i : Nat)
    (p : List Nat) (b : Bool) (h : s.watchers[i]? = some (p, b)) :
    ∃ b2, (applyOp s op).watchers[i]? = some (p, b2) ∧
      (b = true → b2 = true) ∧
      (∀ k v, op = .ins k v → isPfx p k = true → b2 = true) := by
  cases op with
  | del k =>
    refine ⟨b, h, fun hb => hb, fun k' v' hkv => ?_⟩
    cases hkv
  | ins k v =>
    refine ⟨if isPfx p k then true else b, ?_, ?_, ?_⟩
    · simp only [applyOp, sqliteInsert, List.getElem?_map, h]
      by_cases hp : isPfx p k <;> simp [hp]
    · intro hb
      simp [hb]
    · intro k' v' hkv hpk
      cases hkv
      simp [hpk]

theorem watcher_true_persists (ops : List DbOp) :
    ∀ (s : TableState) (i : Nat) (p : List Nat),
      s.watchers[i]? = some (p, true) →
      (runOps s ops).watchers[i]? = some (p, true) := by
  induction ops with
  | nil => intro s i p h; exact h
  | cons op ops ih =>
    intro s i p h
    obtain ⟨b2, h2, hmono, _⟩ := watchers_applyOp s op i p true h
    exact ih (applyOp s op) i p (hmono rfl ▸ h2)

/-- C3 (amended): a future registered by `watch_prefix(P)` is completed by
any subsequent `insert(k, v)` committed on a key `k` that starts with `P`;
`remove` does not notify watchers (see the counterexample). -/
theorem insert_wakes_watcher (ops : List DbOp) :
    ∀ (s : TableState) (i : Nat) (p : List Nat) (b : Bool),
      s.watchers[i]? = some (p, b) →
      (∃ k v, DbOp.ins k v ∈ ops ∧ isPfx p k = true) →
      (runOps s ops).watchers[i]? = some (p, true) := by
  induction ops with
  | nil =>
    intro s i p b _ hex
    obtain ⟨k, v, hmem, _⟩ := hex
    cases hmem
  | cons op ops ih =>
    intro s i p b h hex
    obtain ⟨k, v, hmem, hpk⟩ := hex
    obtain ⟨b2, h2, _, hins⟩ := watchers_applyOp s op i p b h
    rcases List.mem_cons.mp hmem with heq | hmem'
    · subst heq
      exact watcher_true_persists ops (applyOp s (DbOp.ins k v)) i p
        (hins k v rfl hpk ▸ h2)
    · exact ih (applyOp s op) i p b2 h2 ⟨k, v, hmem', hpk⟩

theorem insert_wakes_watcher_witness :
    (runOps (watchPfx [1] ⟨[], []⟩) [DbOp.ins [1, 9] [4]]).watchers[0]? =
      some ([1], true) :=
  insert_wakes_watcher [DbOp.ins [1, 9] [4]] (watchPfx [1] ⟨[], []⟩) 0 [1]
    false (by decide) ⟨[1, 9], [4], by decide, by decide⟩

/-! ### C7: account-data rejection -/

/-- C7 counterexample: starting from the store produced by one valid update
of `(none, user 117, type 109)`, a second update whose value lacks the `type`
and `content` fields returns the invalid-param error, but the store is NOT
left unchanged: the previously stored entry has been removed and `get` no
longer returns it. -/
theorem adUpdate_reject_not_atomic :
    (adUpdate none [117] [109] [] 1
        (adUpdate none [117] [109] [(tyField, [1]), (contentField, [2])] 0
          []).2.1).1 = some AdError.invalidParam ∧
    (adUpdate none [117] [109] [] 1
        (adUpdate none [117] [109] [(tyField, [1]), (contentField, [2])] 0
          []).2.1).2.1 = [] ∧
    (adUpdate none [117] [109] [(tyField, [1]), (contentField, [2])] 0
        []).2.1.length = 1 ∧
    adGet none [117] [109]
        (adUpdate none [117] [109] [(tyField, [1]), (contentField, [2])] 0
          []).2.1 =
      some [(tyField, [1]), (contentField, [2])] ∧
    adGet none [117] [109]
        (adUpdate none [117] [109] [] 1
          (adUpdate none [117] [109] [(tyField, [1]), (contentField, [2])] 0
            []).2.1).2.1 = none := by
  decide

/-- C7 (amended): a call to `AccountData::update` whose value lacks a `type`
or `content` field returns the invalid-param BadRequest error, but the store
is changed: the previously stored entry for that `(room?, user, type)` has
already been removed before the validation runs. -/
theorem adUpdate_invalid_removes (room : Option (List Nat))
    (user ty : List Nat) (j : Json) (cnt : Nat) (t : ADTree)
    (x : List Nat × Json) (hj : validJson j = false)
    (hx : find_event room user ty t = some x) :
    (adUpdate room user ty j cnt t).1 = some AdError.invalidParam ∧
    (adUpdate room user ty j cnt t).2.1 = removeT x.1 t := by
  simp [adUpdate, hx, hj]

theorem adUpdate_invalid_removes_witness :
    (adUpdate none [117] [109] [] 1
        [([255, 117, 255] ++ u64be 1 ++ [255, 109], [(tyField, [1])])]).1 =
      some AdError.invalidParam ∧
    (adUpdate none [117] [109] [] 1
        [([255, 117, 255] ++ u64be 1 ++ [255, 109], [(tyField, [1])])]).2.1 =
      removeT ([255, 117, 255] ++ u64be 1 ++ [255, 109])
        [([255, 117, 255] ++ u64be 1 ++ [255, 109], [(tyField, [1])])] :=
  adUpdate_invalid_removes none [117] [109] [] 1
    [([255, 117, 255] ++ u64be 1 ++ [255, 109], [(tyField, [1])])]
    ([255, 117, 255] ++ u64be 1 ++ [255, 109], [(tyField, [1])])
    (by decide) (by decide)

/-! ### C5: migration 6→7 -/

set_option maxHeartbeats 2000000 in
/-- C5: on a version-6 database with one room (key `[33, 114]` in
`roomid_shortstatehash`), one `pduid_pdu` row and one `tokenids` row keyed by
the full room id, migration 6→7 does allocate the short room id in both
directions, but returns `pduid_pdu` and `tokenids` unchanged: the old
full-room-id keys are still present and no short-prefixed key was inserted —
the rewrite loops only compute and print the new keys. -/
theorem migration6to7_does_not_rewrite :
    lookupT [33, 114]
        (mig6to7
          { emptyMigDb with
            version := 6
            roomidShortstatehash := [([33, 114], hsh 9)]
            pduidPdu := [([33, 114] ++ [255] ++ u64be 5, [80])]
            tokenids :=
              [([33, 114] ++ [255, 119, 255] ++ [33, 114] ++ [255] ++ u64be 5,
                [])] }).roomidShortroomid = some (u64be 1) ∧
    lookupT (u64be 1)
        (mig6to7
          { emptyMigDb with
            version := 6
            roomidShortstatehash := [([33, 114], hsh 9)]
            pduidPdu := [([33, 114] ++ [255] ++ u64be 5, [80])]
            tokenids :=
              [([33, 114] ++ [255, 119, 255] ++ [33, 114] ++ [255] ++ u64be 5,
                [])] }).shortroomidRoomid = some [33, 114] ∧
    (mig6to7
        { emptyMigDb with
          version := 6
          roomidShortstatehash := [([33, 114], hsh 9)]
          pduidPdu := [([33, 114] ++ [255] ++ u64be 5, [80])]
          tokenids :=
            [([33, 114] ++ [255, 119, 255] ++ [33, 114] ++ [255] ++ u64be 5,
              [])] }).pduidPdu = [([33, 114] ++ [255] ++ u64be 5, [80])] ∧
    (mig6to7
        { emptyMigDb with
          version := 6
          roomidShortstatehash := [([33, 114], hsh 9)]
          pduidPdu := [([33, 114] ++ [255] ++ u64be 5, [80])]
          tokenids :=
            [([33, 114] ++ [255, 119, 255] ++ [33, 114] ++ [255] ++ u64be 5,
              [])] }).tokenids =
      [([33, 114] ++ [255, 119, 255] ++ [33, 114] ++ [255] ++ u64be 5, [])] ∧
    lookupT (u64be 1 ++ u64be 5)
        (mig6to7
          { emptyMigDb with
            version := 6
            roomidShortstatehash := [([33, 114], hsh 9)]
            pduidPdu := [([33, 114] ++ [255] ++ u64be 5, [80])]
            tokenids :=
              [([33, 114] ++ [255, 119, 255] ++ [33, 114] ++ [255] ++ u64be 5,
                [])] }).pduidPdu = none := by
  decide

/-! ### C2: `load_or_create` panics on the success path -/

/-- C2: `load_or_create` cannot return `Ok`.  On a fresh empty database every
migration succeeds — the migration pipeline returns `ok` — yet the run ends
at the unconditional `panic!()` (src/database.rs:786); and for every database
and every oracle the result is never `Ok` — each migration either fails
(aborting the process) or control reaches the panic before the `Ok(db)`
tail. -/
theorem load_or_create_never_ok :
    (∀ (verifyEmpty : List Nat → Bool) (roomOf : List Nat → Option (List Nat)),
      (migrationPipeline verifyEmpty roomOf emptyMigDb).isOk = true ∧
      load_or_create verifyEmpty roomOf emptyMigDb = .error .panicked) ∧
    (∀ (verifyEmpty : List Nat → Bool) (roomOf : List Nat → Option (List Nat))
        (db : MigDb),
      (load_or_create verifyEmpty roomOf db).isOk = false) := by
  constructor
  · intro v ro
    exact ⟨rfl, rfl⟩
  · intro v ro db
    unfold load_or_create
    cases h : migrationPipeline v ro db <;> rfl

/-! ### C1: state round-trip -/

set_option maxRecDepth 100000 in
theorem exStore4_reachable : ReachableStore exStore4 := by
  have h1 : ReachableStore exStore1 :=
    ReachableStore.stepRoot store0 (hsh 1) exS0 [] ReachableStore.base
      (by decide) (by decide) rfl
  have h2 : ReachableStore exStore2 :=
    ReachableStore.stepChild exStore1 (hsh 1) (hsh 2) 5 exChain1 [ent 11] []
      h1 (by decide) (by decide) (by decide) (by decide)
  have h3 : ReachableStore exStore3 :=
    ReachableStore.stepChild exStore2 (hsh 2) (hsh 3) 5 exChain2 [] [ent 10]
      h2 (by decide) (by decide) (by decide) (by decide)
  exact ReachableStore.stepChild exStore3 (hsh 3) (hsh 4) 5 exChain3 exAdded
    exRemoved h3 (by decide) (by decide) (by decide) (by decide)

set_option maxRecDepth 100000 in
/-- C1: the state round-trip fails when the new diff is folded into parent
layers.  In the reachable store `exStore3` the current state hash `hsh 3`
loads to the chain `exChain3` with full state `S = exScur`; recording the
next state `S′ = exSprime` through `update_shortstatehash_level` with
`added = S′ ∖ S` and `removed = S ∖ S′` folds the diff (the diff is too
large for the thin parent layers), and the folded layer carries the re-added
entry `ent 10` in both its added and its removed set — loading the new hash
then yields a state missing `ent 10`, although `ent 10 ∈ S′`. -/
theorem state_roundtrip_fails_on_fold :
    ReachableStore exStore4 ∧
    load_shortstatehash_info exStore3 5 (hsh 3) = some exChain3 ∧
    exChain3.getLast?.map Layer.state = some exScur ∧
    exAdded = setDiff exSprime exScur ∧
    exRemoved = setDiff exScur exSprime ∧
    exStore4 =
      update_shortstatehash_level (hsh 4) exAdded exRemoved 2 exChain3
        exStore3 ∧
    exSprime.contains (ent 10) = true ∧
    (load_shortstatehash_info exStore4 5 (hsh 4)).map
        (fun l => ((l.getLast?.map Layer.state).getD []).contains (ent 10)) =
      some false :=
  ⟨exStore4_reachable, by decide, by decide, rfl, rfl, rfl, by decide,
    by decide⟩

/-! ### C6: account-data latest-wins -/

theorem find?_eq_head_filter {α : Type} (p : α → Bool) :
    ∀ l : List α, l.find? p = (l.filter p).head? := by
  intro l
  induction l with
  | nil => rfl
  | cons a l ih =>
    cases h : p a with
    | true =>
      simp only [List.find?_cons, List.filter_cons, h]
      rfl
    | false =>
      simp only [List.find?_cons, List.filter_cons, h, Bool.false_eq_true,
        if_false]
      exact ih

theorem find_event_eq (room : Option (List Nat)) (user ty : List Nat)
    (t : ADTree) :
    find_event room user ty t =
      ((t.filter (adMatch room user ty)).reverse).head? := by
  rw [find_event, find?_eq_head_filter, List.filter_reverse]
  have hcong :
      List.filter
          (fun a => (lastSeg a.1 == ty) && isPfx (adPfx room user) a.1) t =
        List.filter (adMatch room user ty) t :=
    List.filter_congr fun kv _ => by
      show (lastSeg kv.1 == ty && isPfx (adPfx room user) kv.1) =
        (isPfx (adPfx room user) kv.1 && (lastSeg kv.1 == ty))
      exact Bool.and_comm _ _
  rw [List.filter_filter, hcong]

theorem find_event_of_nil (room : Option (List Nat)) (user ty : List Nat)
    (t : ADTree) (h : t.filter (adMatch room user ty) = []) :
    find_event room user ty t = none := by
  rw [find_event_eq, h]
  rfl

theorem find_event_of_single (room : Option (List Nat)) (user ty : List Nat)
    (t : ADTree) (x : List Nat × Json)
    (h : t.filter (adMatch room user ty) = [x]) :
    find_event room user ty t = some x := by
  rw [find_event_eq, h]
  rfl

theorem takeWhile_append_cons {α : Type} (p : α → Bool) :
    ∀ (l : List α) (b : α) (r : List α), (∀ x ∈ l, p x = true) → p b = false →
      (l ++ b :: r).takeWhile p = l := by
  intro l
  induction l with
  | nil =>
    intro b r _ hb
    simp [List.takeWhile, hb]
  | cons a l ih =>
    intro b r hl hb
    have ha : p a = true := hl a (by simp)
    simp only [List.cons_append, List.takeWhile_cons, ha, if_true]
    rw [ih b r (fun x hx => hl x (by simp [hx])) hb]

theorem lastSeg_sep (pre ty : List Nat) (hty : 255 ∉ ty) :
    lastSeg (pre ++ 255 :: ty) = ty := by
  rw [lastSeg, List.reverse_append, List.reverse_cons, List.append_assoc,
    List.cons_append, List.nil_append]
  rw [takeWhile_append_cons _ ty.reverse 255 pre.reverse
    (fun x hx => by
      simp only [List.mem_reverse] at hx
      simp only [decide_eq_true_eq]
      intro hx255
      exact hty (hx255 ▸ hx))
    (by simp)]
  exact List.reverse_reverse ty

theorem isPfx_self_append (p r : List Nat) : isPfx p (p ++ r) = true := by
  simp [isPfx, List.take_left]

theorem adMatch_key (room : Option (List Nat)) (user ty : List Nat)
    (mid : List Nat) (hty : 255 ∉ ty) (j : Json) :
    adMatch room user ty
      (adPfx room user ++ mid ++ [255] ++ ty, j) = true := by
  have hseg : lastSeg (adPfx room user ++ mid ++ [255] ++ ty) = ty := by
    have he : adPfx room user ++ mid ++ [255] ++ ty =
        (adPfx room user ++ mid) ++ 255 :: ty := by
      simp
    rw [he, lastSeg_sep _ _ hty]
  have hpfx : isPfx (adPfx room user)
      (adPfx room user ++ mid ++ [255] ++ ty) = true := by
    have he : adPfx room user ++ mid ++ [255] ++ ty =
        adPfx room user ++ (mid ++ [255] ++ ty) := by
      simp
    rw [he]
    exact isPfx_self_append _ _
  simp only [adMatch, hpfx, hseg, Bool.true_and, beq_self_eq_true]

theorem insertT_filter_nil {q : List Nat × Json → Bool} (k : List Nat)
    (v : Json) (hq : q (k, v) = true) :
    ∀ t : ADTree, (∀ kv ∈ t, q kv = false) →
      (insertT k v t).filter q = [(k, v)] := by
  intro t
  induction t with
  | nil =>
    intro _
    simp [insertT, List.filter_cons, hq]
  | cons kv t ih =>
    intro hall
    have hkv : q kv = false := hall kv (by simp)
    have htnil : t.filter q = [] :=
      List.filter_eq_nil_iff.mpr fun a ha => by
        simp [hall a (by simp [ha])]
    by_cases h1 : k = kv.1
    · simp only [insertT, if_pos h1, List.filter_cons, hq, if_true, htnil]
    · by_cases h2 : listLt k kv.1
      · simp only [insertT, if_neg h1, if_pos h2, List.filter_cons, hq,
          if_true, hkv, Bool.false_eq_true, if_false, htnil]
      · simp only [insertT, if_neg h1, if_neg h2, List.filter_cons, hkv,
          Bool.false_eq_true, if_false]
        exact ih fun a ha => hall a (by simp [ha])

theorem removeT_filter_nil (q : List Nat × Json → Bool) (t : ADTree)
    (x : List Nat × Json) (h : t.filter q = [x]) :
    (removeT x.1 t).filter q = [] := by
  rw [removeT, List.filter_filter]
  refine List.filter_eq_nil_iff.mpr fun a ha => ?_
  intro hcon
  simp only [Bool.and_eq_true, decide_eq_true_eq] at hcon
  obtain ⟨hqa, hne⟩ := hcon
  have hmem : a ∈ t.filter q := List.mem_filter.mpr ⟨ha, hqa⟩
  rw [h] at hmem
  simp only [List.mem_singleton] at hmem
  subst hmem
  simp at hne

theorem adUpdate_valid_filter (room : Option (List Nat)) (user ty : List Nat)
    (hty : 255 ∉ ty) (j : Json) (cnt : Nat) (t : ADTree)
    (hj : validJson j = true)
    (ht : t.filter (adMatch room user ty) = [] ∨
      ∃ x, t.filter (adMatch room user ty) = [x]) :
    (adUpdate room user ty j cnt t).2.1.filter (adMatch room user ty) =
      [(adPfx room user ++ u64be ((cnt + 1) % 2 ^ 64) ++ [255] ++ ty, j)] := by
  have hkey : adMatch room user ty
      (adPfx room user ++ u64be ((cnt + 1) % 2 ^ 64) ++ [255] ++ ty, j) =
        true := adMatch_key room user ty _ hty j
  rcases ht with hnil | ⟨x, hx⟩
  · have hfind := find_event_of_nil room user ty t hnil
    show (adUpdate room user ty j cnt t).2.1.filter (adMatch room user ty) = _
    rw [adUpdate]
    rw [hfind]
    rw [if_pos hj]
    exact insertT_filter_nil _ j hkey t fun kv hkv => by
      simpa using List.filter_eq_nil_iff.mp hnil kv hkv
  · have hfind := find_event_of_single room user ty t x hx
    have hrm : (removeT x.1 t).filter (adMatch room user ty) = [] :=
      removeT_filter_nil _ t x hx
    show (adUpdate room user ty j cnt t).2.1.filter (adMatch room user ty) = _
    rw [adUpdate]
    rw [hfind]
    rw [if_pos hj]
    exact insertT_filter_nil _ j hkey (removeT x.1 t) fun kv hkv => by
      simpa using List.filter_eq_nil_iff.mp hrm kv hkv

theorem adUpdate_cnt (room : Option (List Nat)) (user ty : List Nat)
    (j : Json) (cnt : Nat) (t : ADTree) :
    (adUpdate room user ty j cnt t).2.2 = (cnt + 1) % 2 ^ 64 := by
  by_cases h : validJson j = true <;> simp [adUpdate, h]

theorem runAD_single (room : Option (List Nat)) (user ty : List Nat)
    (hty : 255 ∉ ty) :
    ∀ (vs : List Json) (cnt : Nat) (t : ADTree) (x : List Nat × Json),
      (∀ j ∈ vs, validJson j = true) →
      t.filter (adMatch room user ty) = [x] →
      ∃ k1, (runAD room user ty vs cnt t).1.filter (adMatch room user ty) =
        [(k1, vs.getLastD x.2)] := by
  intro vs
  induction vs with
  | nil =>
    intro cnt t x _ hx
    exact ⟨x.1, by simpa [runAD] using hx⟩
  | cons j js ih =>
    intro cnt t x hv hx
    have hstep := adUpdate_valid_filter room user ty hty j cnt t
      (hv j (by simp)) (Or.inr ⟨x, hx⟩)
    obtain ⟨k1, hk1⟩ := ih ((cnt + 1) % 2 ^ 64)
      (adUpdate room user ty j cnt t).2.1
      (adPfx room user ++ u64be ((cnt + 1) % 2 ^ 64) ++ [255] ++ ty, j)
      (fun j2 hj2 => hv j2 (by simp [hj2])) hstep
    refine ⟨k1, ?_⟩
    show (runAD room user ty js (adUpdate room user ty j cnt t).2.2
        (adUpdate room user ty j cnt t).2.1).1.filter
        (adMatch room user ty) = [(k1, (j :: js).getLastD x.2)]
    rw [adUpdate_cnt, List.getLastD_cons]
    exact hk1

/-- C6: account-data latest-wins.  Starting from a store with no row for
`(room?, user, type)` (in particular the empty store), any nonempty sequence
of successful `AccountData::update` calls for that triple leaves exactly one
row for it in `roomuserdataid_accountdata`, and `AccountData::get` returns
the last value written. -/
theorem account_data_latest_wins (room : Option (List Nat))
    (user ty : List Nat) (vs : List Json) (cnt0 : Nat) (t0 : ADTree)
    (hty : 255 ∉ ty)
    (hvalid : ∀ j ∈ vs, validJson j = true)
    (ht0 : t0.filter (adMatch room user ty) = [])
    (hne : vs ≠ []) :
    ∃ k1,
      (runAD room user ty vs cnt0 t0).1.filter (adMatch room user ty) =
        [(k1, vs.getLastD [])] ∧
      adGet room user ty (runAD room user ty vs cnt0 t0).1 =
        some (vs.getLastD []) := by
  cases vs with
  | nil => exact absurd rfl hne
  | cons j js =>
    have hstep := adUpdate_valid_filter room user ty hty j cnt0 t0
      (hvalid j (by simp)) (Or.inl ht0)
    obtain ⟨k1, hk1⟩ := runAD_single room user ty hty js ((cnt0 + 1) % 2 ^ 64)
      (adUpdate room user ty j cnt0 t0).2.1
      (adPfx room user ++ u64be ((cnt0 + 1) % 2 ^ 64) ++ [255] ++ ty, j)
      (fun j2 hj2 => hvalid j2 (by simp [hj2])) hstep
    have hrun : (runAD room user ty (j :: js) cnt0 t0).1.filter
        (adMatch room user ty) = [(k1, (j :: js).getLastD [])] := by
      show (runAD room user ty js (adUpdate room user ty j cnt0 t0).2.2
          (adUpdate room user ty j cnt0 t0).2.1).1.filter
          (adMatch room user ty) = [(k1, (j :: js).getLastD [])]
      rw [adUpdate_cnt, List.getLastD_cons]
      exact hk1
    refine ⟨k1, hrun, ?_⟩
    rw [adGet, find_event_of_single room user ty _ _ hrun]
    rfl

theorem account_data_latest_wins_witness :
    ∃ k1,
      (runAD none [117] [109]
          [[(tyField, [1]), (contentField, [2])],
           [(tyField, [1]), (contentField, [3])]] 0 []).1.filter
        (adMatch none [117] [109]) =
        [(k1,
          [[(tyField, [1]), (contentField, [2])],
           [(tyField, [1]), (contentField, [3])]].getLastD [])] ∧
      adGet none [117] [109]
          (runAD none [117] [109]
            [[(tyField, [1]), (contentField, [2])],
             [(tyField, [1]), (contentField, [3])]] 0 []).1 =
        some
          ([[(tyField, [1]), (contentField, [2])],
            [(tyField, [1]), (contentField, [3])]].getLastD []) :=
  account_data_latest_wins none [117] [109]
    [[(tyField, [1]), (contentField, [2])],
     [(tyField, [1]), (contentField, [3])]] 0 []
    (by decide) (by decide) (by decide) (by decide)

/-! ### C9: password change frames devices -/

theorem aLookup_filter_keep {κ α : Type} [DecidableEq κ] (k : κ)
    (q : κ × α → Bool) :
    ∀ l : List (κ × α), (∀ v, q (k, v) = true) →
      aLookup k (l.filter q) = aLookup k l := by
  intro l
  induction l with
  | nil => intro _; rfl
  | cons kv t ih =>
    intro hq
    rw [List.filter_cons]
    by_cases h1 : kv.1 = k
    · have : q kv = true := by
        have := hq kv.2
        rwa [show (k, kv.2) = kv from by rw [← h1]] at this
      simp only [this, if_true]
      rw [aLookup, aLookup, if_pos h1, if_pos h1]
    · cases hkv : q kv
      · simp only [Bool.false_eq_true, if_false]
        rw [ih hq, aLookup, if_neg h1]
      · simp only [if_true]
        rw [aLookup, if_neg h1, ih hq, aLookup, if_neg h1]

theorem aLookup_filter_drop {κ α : Type} [DecidableEq κ] (k : κ)
    (q : κ × α → Bool) :
    ∀ l : List (κ × α), (∀ v, q (k, v) = false) →
      aLookup k (l.filter q) = none := by
  intro l
  induction l with
  | nil => intro _; rfl
  | cons kv t ih =>
    intro hq
    rw [List.filter_cons]
    by_cases h1 : kv.1 = k
    · have : q kv = false := by
        have := hq kv.2
        rwa [show (k, kv.2) = kv from by rw [← h1]] at this
      simp only [this, Bool.false_eq_true, if_false]
      exact ih hq
    · cases hkv : q kv
      · simp only [Bool.false_eq_true, if_false]
        exact ih hq
      · simp only [if_true]
        rw [aLookup, if_neg h1]
        exact ih hq

theorem aLookup_filter_none {κ α : Type} [DecidableEq κ] (k : κ)
    (q : κ × α → Bool) :
    ∀ l : List (κ × α), aLookup k l = none →
      aLookup k (l.filter q) = none := by
  intro l
  induction l with
  | nil => intro _; rfl
  | cons kv t ih =>
    intro h
    rw [aLookup] at h
    by_cases h1 : kv.1 = k
    · simp [h1] at h
    · rw [if_neg h1] at h
      rw [List.filter_cons]
      cases hkv : q kv
      · simp only [Bool.false_eq_true, if_false]
        exact ih h
      · simp only [if_true]
        rw [aLookup, if_neg h1]
        exact ih h

theorem aLookup_aRemove_self {κ α : Type} [DecidableEq κ] (k : κ)
    (l : List (κ × α)) : aLookup k (aRemove k l) = none :=
  aLookup_filter_drop k _ l fun v => by simp

theorem aLookup_aRemove_ne {κ α : Type} [DecidableEq κ] (k k' : κ)
    (h : k ≠ k') (l : List (κ × α)) :
    aLookup k (aRemove k' l) = aLookup k l :=
  aLookup_filter_keep k _ l fun v => by simp [h]

theorem aLookup_aRemove_of_none {κ α : Type} [DecidableEq κ] (k k' : κ)
    (l : List (κ × α)) (h : aLookup k l = none) :
    aLookup k (aRemove k' l) = none :=
  aLookup_filter_none k _ l h

theorem aLookup_mem {κ α : Type} [DecidableEq κ] (k : κ) (v : α) :
    ∀ l : List (κ × α), aLookup k l = some v → (k, v) ∈ l := by
  intro l
  induction l with
  | nil => intro h; cases h
  | cons kv t ih =>
    intro h
    rw [aLookup] at h
    by_cases h1 : kv.1 = k
    · rw [if_pos h1] at h
      have hv : kv.2 = v := Option.some.inj h
      have hkv : (k, v) = kv := by
        rw [← h1, ← hv]
      rw [hkv]
      exact List.mem_cons_self kv t
    · rw [if_neg h1] at h
      exact List.mem_cons_of_mem kv (ih h)

theorem remove_device_forward (u id : List Nat) (s : UsersDb) :
    (remove_device u id s).userdeviceid_token = s.userdeviceid_token := rfl

theorem fold_remove_forward (u : List Nat) :
    ∀ (L : List (List Nat)) (s : UsersDb),
      (L.foldl (fun s2 id => remove_device u id s2) s).userdeviceid_token =
        s.userdeviceid_token := by
  intro L
  induction L with
  | nil => intro s; rfl
  | cons id L ih =>
    intro s
    rw [List.foldl_cons, ih, remove_device_forward]

theorem fold_remove_reverse_preserved (u : List Nat) (tok : List Nat) :
    ∀ (L : List (List Nat)) (s : UsersDb),
      (∀ id ∈ L, aLookup (u, id) s.userdeviceid_token ≠ some tok) →
      aLookup tok
          (L.foldl (fun s2 id => remove_device u id s2) s).token_userdeviceid =
        aLookup tok s.token_userdeviceid := by
  intro L
  induction L with
  | nil => intro s _; rfl
  | cons id L ih =>
    intro s hall
    rw [List.foldl_cons,
      ih (remove_device u id s) fun id2 h2 => hall id2 (by simp [h2])]
    rw [remove_device]
    cases hf : aLookup (u, id) s.userdeviceid_token with
    | none => rfl
    | some t2 =>
      have : tok ≠ t2 := fun he => hall id (by simp) (he ▸ hf)
      exact aLookup_aRemove_ne tok t2 this s.token_userdeviceid

theorem fold_remove_reverse_none (u : List Nat) (tok : List Nat) :
    ∀ (L : List (List Nat)) (s : UsersDb),
      aLookup tok s.token_userdeviceid = none →
      aLookup tok
          (L.foldl (fun s2 id => remove_device u id s2) s).token_userdeviceid =
        none := by
  intro L
  induction L with
  | nil => intro s h; exact h
  | cons id L ih =>
    intro s h
    rw [List.foldl_cons]
    refine ih (remove_device u id s) ?_
    rw [remove_device]
    cases hf : aLookup (u, id) s.userdeviceid_token with
    | none => exact h
    | some t2 => exact aLookup_aRemove_of_none tok t2 s.token_userdeviceid h

theorem fold_remove_reverse_removed (u : List Nat) (tok : List Nat) :
    ∀ (L : List (List Nat)) (s : UsersDb),
      (∃ id ∈ L, aLookup (u, id) s.userdeviceid_token = some tok) →
      aLookup tok
          (L.foldl (fun s2 id => remove_device u id s2) s).token_userdeviceid =
        none := by
  intro L
  induction L with
  | nil =>
    intro s hex
    obtain ⟨id, hid, _⟩ := hex
    cases hid
  | cons id L ih =>
    intro s hex
    rw [List.foldl_cons]
    by_cases h : aLookup (u, id) s.userdeviceid_token = some tok
    · refine fold_remove_reverse_none u tok L (remove_device u id s) ?_
      rw [remove_device, h]
      exact aLookup_aRemove_self tok s.token_userdeviceid
    · obtain ⟨id2, hid2, htok2⟩ := hex
      rcases List.mem_cons.mp hid2 with he | hm
      · exact absurd (he ▸ htok2) h
      · exact ih (remove_device u id s) ⟨id2, hm, htok2⟩

theorem all_device_ids_set_password (u newpw : List Nat) (st : UsersDb) :
    all_device_ids u (set_password u newpw st) = all_device_ids u st := rfl

/-- C9: the success path of `change_password_route` removes every device of
the sender other than the current one — their access tokens no longer
resolve through `find_from_token` — while the current device's token mapping
is untouched and its token still resolves to `(user, device)`.  The token
tables are assumed consistent: the stored tokens are pairwise distinct and
the reverse index agrees with the forward one. -/
theorem change_password_frames_devices (u d newpw : List Nat) (st : UsersDb)
    (hnodup : (st.userdeviceid_token.map Prod.snd).Nodup)
    (hwf : ∀ kv ∈ st.userdeviceid_token,
      aLookup kv.2 st.token_userdeviceid = some kv.1) :
    (∀ d2, d2 ∈ all_device_ids u st → d2 ≠ d → ∀ tok,
      aLookup (u, d2) st.userdeviceid_token = some tok →
      find_from_token tok (change_password u d newpw st) = none) ∧
    (∀ tok, aLookup (u, d) st.userdeviceid_token = some tok →
      find_from_token tok (change_password u d newpw st) = some (u, d) ∧
      aLookup (u, d) (change_password u d newpw st).userdeviceid_token =
        some tok) := by
  have hinj : ∀ p1 p2 tok, aLookup p1 st.userdeviceid_token = some tok →
      aLookup p2 st.userdeviceid_token = some tok → p1 = p2 := by
    intro p1 p2 tok h1 h2
    have hm1 := aLookup_mem p1 tok _ h1
    have hm2 := aLookup_mem p2 tok _ h2
    have := List.inj_on_of_nodup_map hnodup hm1 hm2 rfl
    exact congrArg Prod.fst this
  have hfwd1 : (set_password u newpw st).userdeviceid_token =
      st.userdeviceid_token := rfl
  have hrev1 : (set_password u newpw st).token_userdeviceid =
      st.token_userdeviceid := rfl
  constructor
  · intro d2 hd2 hne tok htok
    rw [change_password, find_from_token]
    rw [fold_remove_reverse_removed u tok _ _
      ⟨d2, List.mem_filter.mpr ⟨by rw [all_device_ids_set_password]; exact hd2,
        by simp [hne]⟩, by rw [hfwd1]; exact htok⟩]
  · intro tok htok
    have hnot : ∀ id ∈ (all_device_ids u (set_password u newpw st)).filter
        (fun id => id ≠ d),
        aLookup (u, id) (set_password u newpw st).userdeviceid_token ≠
          some tok := by
      intro id hid hcon
      have hne : id ≠ d := by
        have := (List.mem_filter.mp hid).2
        simpa using this
      rw [hfwd1] at hcon
      exact hne (congrArg Prod.snd (hinj (u, id) (u, d) tok hcon htok))
    constructor
    · rw [change_password, find_from_token,
        fold_remove_reverse_preserved u tok _ _ hnot, hrev1]
      exact hwf ((u, d), tok) (aLookup_mem (u, d) tok _ htok)
    · rw [change_password, fold_remove_forward, hfwd1]
      exact htok

theorem change_password_frames_devices_witness :
    (find_from_token [4]
        (change_password [7] [1] [9]
          (create_device [7] [1] [3] []
            (create_device [7] [2] [4] [] ⟨[], [], [], [], []⟩))) = none) ∧
    (find_from_token [3]
        (change_password [7] [1] [9]
          (create_device [7] [1] [3] []
            (create_device [7] [2] [4] [] ⟨[], [], [], [], []⟩))) =
      some ([7], [1])) ∧
    (aLookup ([7], [1])
        (change_password [7] [1] [9]
          (create_device [7] [1] [3] []
            (create_device [7] [2] [4] []
              ⟨[], [], [], [], []⟩))).userdeviceid_token =
      some [3]) := by
  have h := change_password_frames_devices [7] [1] [9]
    (create_device [7] [1] [3] []
      (create_device [7] [2] [4] [] ⟨[], [], [], [], []⟩))
    (by decide) (by decide)
  exact ⟨h.1 [2] (by decide) (by decide) [4] (by decide),
    (h.2 [3] (by decide)).1, (h.2 [3] (by decide)).2⟩

/-! ### C4: diff-chain depth bound

The lemmas below abbreviate the two result layers of the load walk. -/

theorem load_root_eq (σ : Store) (f : Nat) (h value : List Nat)
    (hσ : σ h = some value) (hlen : ¬ value.length < 8)
    (hz : value.take 8 = zeros8) :
    load_shortstatehash_info σ (f + 1) h = some [rootLayer h value] := by
  simp only [load_shortstatehash_info, hσ]
  rw [if_neg hlen]
  rw [if_neg (fun hc => hc hz)]
  rfl

theorem load_child_eq (σ : Store) (f : Nat) (h value : List Nat)
    (resp : List Layer) (lastE : Layer)
    (hσ : σ h = some value) (hlen : ¬ value.length < 8)
    (hz : value.take 8 ≠ zeros8)
    (hr : load_shortstatehash_info σ f (value.take 8) = some resp)
    (hlast : resp.getLast? = some lastE) :
    load_shortstatehash_info σ (f + 1) h =
      some (resp ++ [childLayer h value lastE.state]) := by
  simp only [load_shortstatehash_info, hσ]
  rw [if_neg hlen]
  rw [if_pos hz]
  simp only [hr]
  simp only [hlast]
  rfl

theorem load_inv (σ : Store) (f : Nat) (h : List Nat) (l : List Layer)
    (hl : load_shortstatehash_info σ (f + 1) h = some l) :
    ∃ value, σ h = some value ∧ ¬ value.length < 8 ∧
      ((value.take 8 = zeros8 ∧ l = [rootLayer h value]) ∨
       (value.take 8 ≠ zeros8 ∧
         ∃ resp lastE,
           load_shortstatehash_info σ f (value.take 8) = some resp ∧
           resp.getLast? = some lastE ∧
           l = resp ++ [childLayer h value lastE.state])) := by
  rw [load_shortstatehash_info] at hl
  cases hσ : σ h with
  | none =>
    simp only [hσ] at hl
    exact Option.noConfusion hl
  | some value =>
    simp only [hσ] at hl
    by_cases hlen : value.length < 8
    · rw [if_pos hlen] at hl
      cases hl
    · rw [if_neg hlen] at hl
      refine ⟨value, rfl, hlen, ?_⟩
      by_cases hz : value.take 8 = zeros8
      · rw [if_neg (fun hc => hc hz)] at hl
        exact Or.inl ⟨hz, (Option.some.inj hl).symm⟩
      · rw [if_pos hz] at hl
        cases hresp : load_shortstatehash_info σ f (value.take 8) with
        | none =>
          simp only [hresp] at hl
          exact Option.noConfusion hl
        | some resp =>
          simp only [hresp] at hl
          cases hlast : resp.getLast? with
          | none =>
            simp only [hlast] at hl
            exact Option.noConfusion hl
          | some lastE =>
            simp only [hlast] at hl
            exact Or.inr ⟨hz, resp, lastE, rfl, hlast,
              (Option.some.inj hl).symm⟩

theorem load_last_hash (σ : Store) :
    ∀ (f : Nat) (h : List Nat) (l : List Layer),
      load_shortstatehash_info σ f h = some l →
      ∃ e, l.getLast? = some e ∧ e.hash = h := by
  intro f
  cases f with
  | zero => intro h l hl; cases hl
  | succ f =>
    intro h l hl
    obtain ⟨value, _, _, hcase⟩ := load_inv σ f h l hl
    rcases hcase with ⟨_, rfl⟩ | ⟨_, resp, lastE, _, _, rfl⟩
    · exact ⟨rootLayer h value, rfl, rfl⟩
    · exact ⟨childLayer h value lastE.state, List.getLast?_concat resp, rfl⟩

theorem load_ne_nil (σ : Store) (f : Nat) (h : List Nat) (l : List Layer)
    (hl : load_shortstatehash_info σ f h = some l) : l ≠ [] := by
  obtain ⟨e, he, _⟩ := load_last_hash σ f h l hl
  intro hnil
  rw [hnil] at he
  cases he

theorem load_dom (σ : Store) :
    ∀ (f : Nat) (h : List Nat) (l : List Layer),
      load_shortstatehash_info σ f h = some l →
      ∀ e ∈ l, σ e.hash ≠ none := by
  intro f
  induction f with
  | zero => intro h l hl; cases hl
  | succ f ih =>
    intro h l hl e hmem
    obtain ⟨value, hσ, _, hcase⟩ := load_inv σ f h l hl
    rcases hcase with ⟨_, rfl⟩ | ⟨_, resp, lastE, hresp, _, rfl⟩
    · rw [List.mem_singleton] at hmem
      rw [hmem]
      show σ h ≠ none
      rw [hσ]
      exact Option.noConfusion
    · rcases List.mem_append.mp hmem with hm | hm
      · exact ih (value.take 8) resp hresp e hm
      · rw [List.mem_singleton] at hm
        rw [hm]
        show σ h ≠ none
        rw [hσ]
        exact Option.noConfusion

theorem load_mono (σ : Store) :
    ∀ (f : Nat) (h : List Nat) (l : List Layer),
      load_shortstatehash_info σ f h = some l →
      load_shortstatehash_info σ (f + 1) h = some l := by
  intro f
  induction f with
  | zero => intro h l hl; cases hl
  | succ f ih =>
    intro h l hl
    obtain ⟨value, hσ, hlen, hcase⟩ := load_inv σ f h l hl
    rcases hcase with ⟨hz, rfl⟩ | ⟨hz, resp, lastE, hresp, hlast, rfl⟩
    · exact load_root_eq σ (f + 1) h value hσ hlen hz
    · exact load_child_eq σ (f + 1) h value resp lastE hσ hlen hz
        (ih _ resp hresp) hlast

theorem load_mono_le (σ : Store) (f f2 : Nat) (hle : f ≤ f2)
    (h : List Nat) (l : List Layer)
    (hl : load_shortstatehash_info σ f h = some l) :
    load_shortstatehash_info σ f2 h = some l := by
  induction f2 with
  | zero =>
    cases Nat.le_zero.mp hle
    exact hl
  | succ f2 ih =>
    rcases Nat.lt_or_ge f (f2 + 1) with hlt | hge
    · exact load_mono σ f2 h l (ih (Nat.lt_succ_iff.mp hlt))
    · cases Nat.le_antisymm hle hge
      exact hl

theorem load_len (σ : Store) :
    ∀ (f : Nat) (h : List Nat) (l : List Layer),
      load_shortstatehash_info σ f h = some l → l.length ≤ f := by
  intro f
  induction f with
  | zero => intro h l hl; cases hl
  | succ f ih =>
    intro h l hl
    obtain ⟨value, _, _, hcase⟩ := load_inv σ f h l hl
    rcases hcase with ⟨_, rfl⟩ | ⟨_, resp, lastE, hresp, _, rfl⟩
    · simp
    · have := ih (value.take 8) resp hresp
      simp only [List.length_append, List.length_singleton]
      omega

theorem load_shrink (σ : Store) :
    ∀ (f : Nat) (h : List Nat) (l : List Layer),
      load_shortstatehash_info σ f h = some l →
      load_shortstatehash_info σ l.length h = some l := by
  intro f
  induction f with
  | zero => intro h l hl; cases hl
  | succ f ih =>
    intro h l hl
    obtain ⟨value, hσ, hlen, hcase⟩ := load_inv σ f h l hl
    rcases hcase with ⟨hz, rfl⟩ | ⟨hz, resp, lastE, hresp, hlast, rfl⟩
    · exact load_root_eq σ 0 h value hσ hlen hz
    · have hr := ih (value.take 8) resp hresp
      have hlr : (resp ++ [childLayer h value lastE.state]).length =
          resp.length + 1 := by
        simp
      rw [hlr]
      exact load_child_eq σ resp.length h value resp lastE hσ hlen hz hr hlast

theorem load_det (σ : Store) :
    ∀ (f1 f2 : Nat) (h : List Nat) (l1 l2 : List Layer),
      load_shortstatehash_info σ f1 h = some l1 →
      load_shortstatehash_info σ f2 h = some l2 → l1 = l2 := by
  intro f1
  induction f1 with
  | zero => intro f2 h l1 l2 h1; cases h1
  | succ f1 ih =>
    intro f2 h l1 l2 h1 h2
    cases f2 with
    | zero => cases h2
    | succ f2 =>
      obtain ⟨value, hσ, hlen, hcase1⟩ := load_inv σ f1 h l1 h1
      obtain ⟨value2, hσ2, hlen2, hcase2⟩ := load_inv σ f2 h l2 h2
      have hv : value2 = value := by
        rw [hσ] at hσ2
        exact (Option.some.inj hσ2).symm
      subst hv
      rcases hcase1 with ⟨hz, rfl⟩ | ⟨hz, resp, lastE, hresp, hlast, rfl⟩
      · rcases hcase2 with ⟨_, rfl⟩ | ⟨hz2, _, _, _, _, _⟩
        · rfl
        · exact absurd hz hz2
      · rcases hcase2 with ⟨hz2, _⟩ | ⟨_, resp2, lastE2, hresp2, hlast2, rfl⟩
        · exact absurd hz2 hz
        · have hre : resp = resp2 := ih f2 _ resp resp2 hresp hresp2
          subst hre
          have hle : lastE = lastE2 := by
            rw [hlast] at hlast2
            exact Option.some.inj hlast2
          rw [hle]

theorem load_insert_fresh (σ : Store) (k v : List Nat) :
    ∀ (f : Nat) (h : List Nat) (l : List Layer),
      load_shortstatehash_info σ f h = some l →
      (∀ e ∈ l, e.hash ≠ k) →
      load_shortstatehash_info (insertStore σ k v) f h = some l := by
  intro f
  induction f with
  | zero => intro h l hl; cases hl
  | succ f ih =>
    intro h l hl hfresh
    obtain ⟨value, hσ, hlen, hcase⟩ := load_inv σ f h l hl
    have hhk : h ≠ k := by
      obtain ⟨e, he, hehash⟩ := load_last_hash σ (f + 1) h l hl
      have hmem : e ∈ l := List.mem_of_mem_getLast? he
      exact hehash ▸ hfresh e hmem
    have hσ2 : insertStore σ k v h = some value := by
      rw [insertStore, if_neg hhk]
      exact hσ
    rcases hcase with ⟨hz, rfl⟩ | ⟨hz, resp, lastE, hresp, hlast, rfl⟩
    · exact load_root_eq _ f h value hσ2 hlen hz
    · have hr2 := ih (value.take 8) resp hresp fun e hm =>
        hfresh e (List.mem_append.mpr (Or.inl hm))
      exact load_child_eq _ f h value resp lastE hσ2 hlen hz hr2 hlast

theorem load_chain_at (σ : Store) :
    ∀ (f : Nat) (h : List Nat) (l : List Layer),
      load_shortstatehash_info σ f h = some l →
      ∀ (i : Nat) (hi : i < l.length),
        load_shortstatehash_info σ f (l[i].hash) = some (l.take (i + 1)) := by
  intro f
  induction f with
  | zero => intro h l hl; cases hl
  | succ f ih =>
    intro h l hl i hi
    obtain ⟨value, hσ, hlen, hcase⟩ := load_inv σ f h l hl
    rcases hcase with ⟨hz, he⟩ | ⟨hz, resp, lastE, hresp, hlast, he⟩
    · subst he
      have hi0 : i = 0 := by
        simp only [List.length_singleton] at hi
        omega
      subst hi0
      exact hl
    · subst he
      have hlr : (resp ++ [childLayer h value lastE.state]).length =
          resp.length + 1 := by
        simp
      by_cases hir : i < resp.length
      · have hgi : (resp ++ [childLayer h value lastE.state])[i] = resp[i] :=
          List.getElem_append_left hir
        have htk : (resp ++ [childLayer h value lastE.state]).take (i + 1) =
            resp.take (i + 1) :=
          List.take_append_of_le_length hir
        rw [hgi, htk]
        exact load_mono σ f _ _ (ih (value.take 8) resp hresp i hir)
      · have hieq : i = resp.length := by
          rw [hlr] at hi
          omega
        subst hieq
        have hgi : (resp ++ [childLayer h value lastE.state])[resp.length] =
            childLayer h value lastE.state :=
          List.getElem_concat_length resp _ resp.length rfl hi
        have htk : (resp ++ [childLayer h value lastE.state]).take
            (resp.length + 1) = resp ++ [childLayer h value lastE.state] := by
          rw [← hlr]
          exact List.take_length _
        rw [hgi, htk]
        exact hl

theorem chain_dropLast (σ : Store) (ps : List Layer)
    (hc : ∀ (i : Nat) (hi : i < ps.length),
      load_shortstatehash_info σ 5 (ps[i].hash) = some (ps.take (i + 1))) :
    ∀ (i : Nat) (hi : i < ps.dropLast.length),
      load_shortstatehash_info σ 5 (ps.dropLast[i].hash) =
        some (ps.dropLast.take (i + 1)) := by
  intro i hi
  have hi1 : i < ps.length - 1 := by
    simpa [List.length_dropLast] using hi
  have hi2 : i < ps.length := by omega
  have hg : ps.dropLast[i] = ps[i] := List.getElem_dropLast ps i hi
  have ht : ps.dropLast.take (i + 1) = ps.take (i + 1) := by
    rw [List.dropLast_eq_take, List.take_take]
    congr 1
    omega
  rw [hg, ht]
  exact hc i hi2

set_option maxHeartbeats 1000000 in
theorem updateLevelAux_spec :
    ∀ (fuel : Nat) (σ : Store) (h : List Nat) (a r : List (List Nat)) (g : Nat)
      (ps : List Layer),
      ps.length < fuel → σ h = none →
      (∀ (i : Nat) (hi : i < ps.length),
        load_shortstatehash_info σ 5 (ps[i].hash) = some (ps.take (i + 1))) →
      (∀ e ∈ ps, e.hash.length = 8 ∧ e.hash ≠ zeros8) →
      ∃ v, updateLevelAux σ fuel h a r g ps = insertStore σ h v ∧
        ∃ l, load_shortstatehash_info (insertStore σ h v) 5 h = some l ∧
          l.length ≤ 4 := by
  intro fuel
  induction fuel with
  | zero =>
    intro σ h a r g ps hlen
    exact absurd hlen (Nat.not_lt_zero _)
  | succ fuel ih =>
    intro σ h a r g ps hlen hfresh hchain hdom8
    by_cases hdeep : 3 < ps.length
    · have hne : ps ≠ [] := by
        intro he
        rw [he] at hdeep
        simp at hdeep
      have hge : ps.getLast? = some (ps.getLast hne) :=
        List.getLast?_eq_getLast ps hne
      have hlen2 : ps.dropLast.length < fuel := by
        simp only [List.length_dropLast]
        omega
      have hres := ih σ h
        (foldDiff (ps.getLast hne).added (ps.getLast hne).removed a r).1
        (foldDiff (ps.getLast hne).added (ps.getLast hne).removed a r).2
        (a.length + r.length) ps.dropLast hlen2 hfresh
        (chain_dropLast σ ps hchain)
        (fun e he => hdom8 e (List.mem_of_mem_dropLast he))
      simp only [updateLevelAux, if_pos hdeep, hge]
      exact hres
    · by_cases hempty : ps.isEmpty = true
      · have hpse : ps = [] := List.isEmpty_iff.mp hempty
        subst hpse
        refine ⟨zeros8 ++ a.flatten, ?_, ?_⟩
        · simp only [updateLevelAux, if_neg hdeep, if_pos hempty]
        · have hσ2 : insertStore σ h (zeros8 ++ a.flatten) h =
              some (zeros8 ++ a.flatten) := by
            simp [insertStore]
          have hlen8 : ¬ (zeros8 ++ a.flatten).length < 8 := by
            simp [zeros8]
          have hz : (zeros8 ++ a.flatten).take 8 = zeros8 :=
            List.take_left' rfl
          exact ⟨[rootLayer h (zeros8 ++ a.flatten)],
            load_root_eq _ 4 h _ hσ2 hlen8 hz, by simp⟩
      · have hne : ps ≠ [] := fun he => hempty (by simp [he])
        have hge : ps.getLast? = some (ps.getLast hne) :=
          List.getLast?_eq_getLast ps hne
        by_cases hbig : 2 * g * ((ps.getLast hne).added.length +
            (ps.getLast hne).removed.length) ≤
            (a.length + r.length) * (a.length + r.length)
        · have hlen2 : ps.dropLast.length < fuel := by
            have : 0 < ps.length := List.length_pos.mpr hne
            simp only [List.length_dropLast]
            omega
          have hres := ih σ h
            (foldDiff (ps.getLast hne).added (ps.getLast hne).removed a r).1
            (foldDiff (ps.getLast hne).added (ps.getLast hne).removed a r).2
            (a.length + r.length) ps.dropLast hlen2 hfresh
            (chain_dropLast σ ps hchain)
            (fun e he => hdom8 e (List.mem_of_mem_dropLast he))
          simp only [updateLevelAux, if_neg hdeep, if_neg hempty, hge,
            if_pos hbig]
          exact hres
        · -- attach the diff as a child of the last parent layer
          have hplen : ps.length ≤ 3 := by omega
          have hpos : 0 < ps.length := List.length_pos.mpr hne
          have hgl : ps.getLast hne = ps[ps.length - 1] :=
            List.getLast_eq_getElem ps hne
          have hparent_load :
              load_shortstatehash_info σ 5 ((ps.getLast hne).hash) =
                some ps := by
            have hc := hchain (ps.length - 1) (by omega)
            rw [← hgl] at hc
            have harith : ps.length - 1 + 1 = ps.length := by omega
            rw [harith, List.take_length] at hc
            exact hc
          have hpmem : ps.getLast hne ∈ ps := List.getLast_mem hne
          obtain ⟨hp8, hpz⟩ := hdom8 _ hpmem
          have helems : ∀ e ∈ ps, e.hash ≠ h := fun e he heq =>
            (load_dom σ 5 _ ps hparent_load e he) (heq ▸ hfresh)
          have hload4 : load_shortstatehash_info σ 4
              ((ps.getLast hne).hash) = some ps :=
            load_mono_le σ ps.length 4 (by omega) _ ps
              (load_shrink σ 5 _ ps hparent_load)
          set v := diffValue (ps.getLast hne).hash a r with hv
          have hload4t : load_shortstatehash_info (insertStore σ h v) 4
              ((ps.getLast hne).hash) = some ps :=
            load_insert_fresh σ h v 4 _ ps hload4 helems
          have hσ2 : insertStore σ h v h = some v := by
            simp [insertStore]
          have hvlen : ¬ v.length < 8 := by
            rw [hv, diffValue]
            simp only [List.append_assoc, List.length_append, hp8]
            omega
          have hvtake : v.take 8 = (ps.getLast hne).hash := by
            rw [hv, diffValue, List.append_assoc]
            exact List.take_left' hp8
          have hvz : v.take 8 ≠ zeros8 := by
            rw [hvtake]
            exact hpz
          have hr4 : load_shortstatehash_info (insertStore σ h v) 4
              (v.take 8) = some ps := by
            rw [hvtake]
            exact hload4t
          have hloadres := load_child_eq (insertStore σ h v) 4 h v ps
            (ps.getLast hne) hσ2 hvlen hvz hr4 hge
          refine ⟨v, ?_, ⟨ps ++ [childLayer h v (ps.getLast hne).state],
            hloadres, ?_⟩⟩
          · simp only [updateLevelAux, if_neg hdeep, if_neg hempty, hge,
              if_neg hbig]
          · simp only [List.length_append, List.length_singleton]
            omega

theorem wf_insert (σ : Store) (h v : List Nat) (h8 : h.length = 8)
    (hz : h ≠ zeros8) (hfresh : σ h = none) (hwf : WFStore σ)
    (l : List Layer)
    (hload : load_shortstatehash_info (insertStore σ h v) 5 h = some l)
    (hlen4 : l.length ≤ 4) : WFStore (insertStore σ h v) := by
  intro h2 hh2
  by_cases hcase : h2 = h
  · subst hcase
    exact ⟨h8, hz, l, hload, hlen4⟩
  · have hσh2 : σ h2 ≠ none := by
      simp only [insertStore, if_neg hcase] at hh2
      exact hh2
    obtain ⟨h28, h2z, l2, hl2, hl2len⟩ := hwf h2 hσh2
    exact ⟨h28, h2z, l2,
      load_insert_fresh σ h v 5 h2 l2 hl2
        (fun e he heq2 => (load_dom σ 5 h2 l2 hl2 e he) (heq2 ▸ hfresh)),
      hl2len⟩

theorem wf_of_reachable : ∀ σ, ReachableStore σ → WFStore σ := by
  intro σ0 hr
  induction hr with
  | base =>
    intro h hh
    exact absurd rfl hh
  | stepRoot σ h a r hrec h8 hz hfresh ih =>
    obtain ⟨v, heq, l, hload, hlen4⟩ := updateLevelAux_spec 1 σ h a r 2 []
      (by simp) hfresh (fun i hi => absurd hi (by simp)) (fun e he => absurd he (by simp))
    rw [show update_shortstatehash_level h a r 2 [] σ = insertStore σ h v
      from heq]
    exact wf_insert σ h v h8 hz hfresh ih l hload hlen4
  | stepChild σ prev h f l a r hrec h8 hz hfresh hloadprev ih =>
    obtain ⟨e, hge, hehash⟩ := load_last_hash σ f prev l hloadprev
    have hmem : e ∈ l := List.mem_of_mem_getLast? hge
    have hdomprev : σ prev ≠ none :=
      hehash ▸ load_dom σ f prev l hloadprev e hmem
    obtain ⟨hp8, hpz, l5, hl5, hl5len⟩ := ih prev hdomprev
    have hdet : l = l5 := load_det σ f 5 prev l l5 hloadprev hl5
    rw [← hdet] at hl5 hl5len
    have hchain := load_chain_at σ 5 prev l hl5
    have hdom8 : ∀ e2 ∈ l, e2.hash.length = 8 ∧ e2.hash ≠ zeros8 := by
      intro e2 he2
      obtain ⟨a8, az, _⟩ := ih e2.hash (load_dom σ 5 prev l hl5 e2 he2)
      exact ⟨a8, az⟩
    obtain ⟨v, heq, l2, hload, hlen4⟩ := updateLevelAux_spec (l.length + 1)
      σ h a r 2 l (by omega) hfresh hchain hdom8
    rw [show update_shortstatehash_level h a r 2 l σ = insertStore σ h v
      from heq]
    exact wf_insert σ h v h8 hz hfresh ih l2 hload hlen4

/-- C4: diff-chain depth bound.  In every store built by a sequence of
`update_shortstatehash_level` calls — each invoked with the chain that
`load_shortstatehash_info` returns for the previous state hash — every
stored `ShortStateHash` loads to a chain of at most 4 layers ending at a
root layer (walking parents terminates within fuel 5). -/
theorem diff_chain_depth_le_four (σ : Store) (hr : ReachableStore σ)
    (h : List Nat) (hh : σ h ≠ none) :
    ∃ l, load_shortstatehash_info σ 5 h = some l ∧ l.length ≤ 4 :=
  ((wf_of_reachable σ hr) h hh).2.2

set_option maxRecDepth 10000 in
theorem diff_chain_depth_le_four_witness :
    ∃ l, load_shortstatehash_info exStore1 5 (hsh 1) = some l ∧
      l.length ≤ 4 :=
  diff_chain_depth_le_four exStore1
    (ReachableStore.stepRoot store0 (hsh 1) exS0 [] ReachableStore.base
      (by decide) (by decide) rfl)
    (hsh 1) (by decide)

end Conduit
